import Mathlib

/-!
Shallow embedding of the pure-Python Lerc1 decoder
(`src/OtherLanguages/Python/PurePython_Lerc1Only/Lerc1Decode.py`) and proofs
about it.  Byte buffers are `List Nat`; fallible reads return `Option`;
Python floats are modelled as exact rationals.
-/

/-- Byte buffers are lists of naturals; a well-formed blob has entries below 256. -/
abbrev Blob := List Nat

/-- Reads one unsigned byte at `off`, as `struct.unpack_from("B", blob, off)`;
`none` models the `struct.error` raised on a too-short buffer. -/
def readU8 (blob : Blob) (off : Nat) : Option Nat :=
  (blob.drop off).head?

/-- Assembles a little-endian 16-bit unsigned value from the head of a list. -/
def le16 : List Nat → Option Nat
  | b0 :: b1 :: _ => some (b0 + 256 * b1)
  | _ => none

/-- Assembles a little-endian 32-bit unsigned value from the head of a list. -/
def le32 : List Nat → Option Nat
  | b0 :: b1 :: b2 :: b3 :: _ => some (b0 + 256 * b1 + 65536 * b2 + 16777216 * b3)
  | _ => none

/-- Assembles a little-endian 64-bit unsigned value from the head of a list. -/
def le64 : List Nat → Option Nat
  | b0 :: b1 :: b2 :: b3 :: b4 :: b5 :: b6 :: b7 :: _ =>
      some (b0 + 2^8 * b1 + 2^16 * b2 + 2^24 * b3 + 2^32 * b4 + 2^40 * b5 + 2^48 * b6
        + 2^56 * b7)
  | _ => none

/-- Reads `struct.unpack_from("<H", blob, off)`. -/
def readU16 (blob : Blob) (off : Nat) : Option Nat :=
  le16 (blob.drop off)

/-- Reads `struct.unpack_from("<I", blob, off)`. -/
def readU32 (blob : Blob) (off : Nat) : Option Nat :=
  le32 (blob.drop off)

/-- Reads `struct.unpack_from("<h", blob, off)`: signed 16-bit little-endian. -/
def readI16 (blob : Blob) (off : Nat) : Option Int :=
  (readU16 blob off).map (fun v => if v < 32768 then (v : Int) else (v : Int) - 65536)

/-- Reads `struct.unpack_from("b", blob, off)`: signed 8-bit. -/
def readI8 (blob : Blob) (off : Nat) : Option Int :=
  (readU8 blob off).map (fun v => if v < 128 then (v : Int) else (v : Int) - 256)

/-- Exact rational value of an IEEE-754 binary32 bit pattern.  Non-finite
patterns (exponent field 255, i.e. infinities and NaNs) are mapped to `0`;
no verified claim depends on the numeric value of a non-finite field. -/
def fl32ToRatD (bits : Nat) : ℚ :=
  let sign : ℚ := if (bits >>> 31) % 2 = 1 then -1 else 1
  let exp : Nat := (bits >>> 23) % 256
  let frac : Nat := bits % 2^23
  if exp = 255 then 0
  else if exp = 0 then sign * (frac : ℚ) * (2 : ℚ) ^ (-(149 : ℤ))
  else sign * ((2^23 + frac : ℕ) : ℚ) * (2 : ℚ) ^ ((exp : ℤ) - 150)

/-- Exact rational value of an IEEE-754 binary64 bit pattern, non-finite
patterns mapped to `0` as in `fl32ToRatD`. -/
def fl64ToRatD (bits : Nat) : ℚ :=
  let sign : ℚ := if (bits >>> 63) % 2 = 1 then -1 else 1
  let exp : Nat := (bits >>> 52) % 2048
  let frac : Nat := bits % 2^52
  if exp = 2047 then 0
  else if exp = 0 then sign * (frac : ℚ) * (2 : ℚ) ^ (-(1074 : ℤ))
  else sign * ((2^52 + frac : ℕ) : ℚ) * (2 : ℚ) ^ ((exp : ℤ) - 1075)

/-- Reads `struct.unpack_from("<f", blob, off)` as an exact rational. -/
def readF32 (blob : Blob) (off : Nat) : Option ℚ :=
  (readU32 blob off).map fl32ToRatD

/-- Reads `struct.unpack_from("<d", blob, off)` as an exact rational. -/
def readF64 (blob : Blob) (off : Nat) : Option ℚ :=
  (le64 (blob.drop off)).map fl64ToRatD

/-- Reads `n` consecutive bytes, as `struct.unpack_from(str(n)+"B", blob, off)`. -/
def readBytes (blob : Blob) (off : Nat) : Nat → Option (List Nat)
  | 0 => some []
  | n + 1 => do
    let b ← readU8 blob off
    let rest ← readBytes blob (off + 1) n
    pure (b :: rest)

/-- A double loop, x inner, y outer (`dloop`). -/
def dloop (xr yr : List Nat) : List (Nat × Nat) :=
  yr.flatMap (fun y => xr.map (fun x => (x, y)))

/-- The RLE decoder (`decode_RLE`).  The outer `Option` models a raised
`struct.error`; the inner one models the explicit `return None` taken when the
end-marker check fails.  `size` is the remaining byte budget (it can go
negative mid-loop in Python, hence `Int`). -/
def decode_RLE (blob : Blob) (offset : Nat) (size : Int) : Option (Option (List Nat)) :=
  if _h : 2 < size then
    match readI16 blob offset with
    | none => none
    | some count =>
      if _hneg : count < 0 then
        match readU8 blob (offset + 2) with
        | none => none
        | some b =>
          match decode_RLE blob (offset + 2 + 1) (size - 3) with
          | none => none
          | some none => some none
          | some (some rest) => some (some (List.replicate (-count).toNat b ++ rest))
      else
        match readBytes blob (offset + 2) count.toNat with
        | none => none
        | some bs =>
          match decode_RLE blob (offset + 2 + count.toNat) (size - 2 - count) with
          | none => none
          | some none => some none
          | some (some rest) => some (some (bs ++ rest))
  else
    match readI16 blob offset with
    | none => none
    | some v => if v = -32768 then some (some []) else some none
termination_by size.toNat
decreasing_by
  · omega
  · omega

/-- Reassembles the stored high-order bytes of a trailing partial 32-bit word,
mirroring the loop `v8 |= values8[i] << (8 * (i + 4 - extra_bytes))`. -/
def assembleExtra (e : Nat) : List Nat → Nat → Nat
  | [], _ => 0
  | b :: rest, i => (b <<< (8 * (i + 4 - e))) ||| assembleExtra e rest (i + 1)

/-- Reads `n` consecutive little-endian 32-bit words. -/
def readU32List (blob : Blob) (off : Nat) : Nat → Option (List Nat)
  | 0 => some []
  | n + 1 => do
    let w ← readU32 blob off
    let ws ← readU32List blob (off + 4) n
    pure (w :: ws)

/-- The MSB-first bit-unpacking loop of `read_qval`.  `v` is the current source
word and `bitsLeft` the number of its not-yet-consumed low bits.  Failure modes
mirror Python: exhausting the word iterator models `StopIteration`, and a
negative `bits_left` (possible only when `nbits > 32`) models the `ValueError`
raised by a negative shift count. -/
def unpackLoop (nbits : Nat) : (src : List Nat) → (v bitsLeft : Nat) → (count : Nat) →
    Option (List Nat)
  | _, _, _, 0 => some []
  | src, v, bitsLeft, count + 1 =>
    if nbits ≤ bitsLeft then
      (unpackLoop nbits src v (bitsLeft - nbits) count).map
        (fun rest => (((1 <<< nbits) - 1) &&& (v >>> (bitsLeft - nbits))) :: rest)
    else
      match src with
      | [] => none
      | w :: rest =>
        if bitsLeft + 32 < nbits then none
        else
          (unpackLoop nbits rest w (bitsLeft + 32 - nbits) count).map
            (fun vs =>
              ((((1 <<< nbits) - 1) &&& (v <<< (nbits - bitsLeft)))
                + (w >>> (bitsLeft + 32 - nbits))) :: vs)

/-- Reads a block of packed integers (`read_qval`).  `some (none, off)` models
the Python return `(None, offset)` taken when bits-per-value is zero; the outer
`none` models a raised exception (including the `StopIteration` from priming
`v = next(src)` on an empty word sequence). -/
def read_qval (blob : Blob) (offset : Nat) : Option (Option (List Nat) × Nat) := do
  let hdr ← readU8 blob offset
  let bc := hdr >>> 6
  let nbits := hdr &&& 63
  if nbits = 0 then
    pure (none, offset + 1)
  else do
    let cw ←
      match bc with
      | 0 => (readU32 blob (offset + 1)).map (fun c => (c, 4))
      | 1 => (readU16 blob (offset + 1)).map (fun c => (c, 2))
      | 2 => (readU8 blob (offset + 1)).map (fun c => (c, 1))
      | _ => none
    let count := cw.1
    let off1 := offset + 1 + cw.2
    let nbytes := (count * nbits + 7) / 8
    let nint := nbytes / 4
    let ws0 ← readU32List blob off1 nint
    let extra := nbytes - nint * 4
    let (ws, off2) ←
      if extra = 0 then some (ws0, off1 + nint * 4)
      else do
        let bs ← readBytes blob (off1 + nint * 4) extra
        some (ws0 ++ [assembleExtra extra bs 0], off1 + nint * 4 + extra)
    match ws with
    | [] => none
    | v :: src => do
      let vals ← unpackLoop nbits src v 32 count
      pure (some vals, off2)

/-- Row-major bitmask, most significant bit first (`class bitmask`). -/
structure bitmask where
  w : Nat
  h : Nat
  data : List Nat
deriving DecidableEq

/-- Mirrors `bitmask.__init__`: a uniform fill of `(w*h+7)//8` copies of `val`
when no data sequence is supplied, else the given byte sequence. -/
def bitmask.init (w h val : Nat) (data : Option (List Nat)) : bitmask :=
  { w := w, h := h,
    data := match data with
            | none => List.replicate ((w * h + 7) / 8) val
            | some d => d }

/-- Mirrors `bitmask.at`; `none` models an out-of-range `IndexError`. -/
def bitmask.at' (m : bitmask) (x y : Nat) : Option Bool :=
  let l := y * m.w + x
  (m.data.get? (l / 8)).map (fun b => b &&& (128 >>> (l % 8)) != 0)

/-- Assignment `data[i] = v` on the sample array; `none` models `IndexError`. -/
def setQ (data : List ℚ) (i : Nat) (v : ℚ) : Option (List ℚ) :=
  if i < data.length then some (data.set i v) else none

/-- Reads the optional per-block minimum value of `read_block`: the top two
bits of the flag byte select the encoding (float32, int16, int8; selector 3 is
an `IndexError`), and the value is absent (0.0) when flag bit 0 is clear. -/
def blockMinVal (blob : Blob) (offset : Nat) (flagsByte : Nat) : Option (ℚ × Nat) :=
  if flagsByte &&& 63 &&& 1 ≠ 0 then
    match flagsByte >>> 6 with
    | 0 => (readF32 blob offset).map (fun q => (q, offset + 4))
    | 1 => (readI16 blob offset).map (fun i => ((i : ℚ), offset + 2))
    | 2 => (readI8 blob offset).map (fun i => ((i : ℚ), offset + 1))
    | _ => none
  else some (0, offset)

/-- One iteration of the mode-0 (raw) pixel loop of `read_block`: a masked-in
pixel reads a float32 from the stream and advances the offset by 4. -/
def rawStep (mask : bitmask) (blob : Blob) (st : List ℚ × Nat) (xy : Nat × Nat) :
    Option (List ℚ × Nat) := do
  let b ← mask.at' xy.1 xy.2
  if b then do
    let q ← readF32 blob st.2
    let d ← setQ st.1 (xy.2 * mask.w + xy.1) q
    pure (d, st.2 + 4)
  else pure st

/-- One iteration of the constant-mode pixel loop of `read_block`: every pixel
(mask ignored) is set to the minimum value. -/
def constStep (mask : bitmask) (mval : ℚ) (d : List ℚ) (xy : Nat × Nat) :
    Option (List ℚ) :=
  setQ d (xy.2 * mask.w + xy.1) mval

/-- One iteration of the quantized-mode pixel loop of `read_block`: a masked-in
pixel consumes the next unpacked integer and stores
`min(mval + Q * value, maxVal)`. -/
def qStep (mask : bitmask) (Q maxVal mval : ℚ) (st : List ℚ × List Nat)
    (xy : Nat × Nat) : Option (List ℚ × List Nat) := do
  let b ← mask.at' xy.1 xy.2
  if b then
    match st.2 with
    | [] => none
    | i :: rest => do
      let d ← setQ st.1 (xy.2 * mask.w + xy.1) (min (mval + Q * (i : ℚ)) maxVal)
      pure (d, rest)
  else pure st

/-- Decodes a single Lerc block (`read_block`), returning the updated sample
array and the end offset.  `none` models any raised exception: failed assert
(`flags < 4`), bad selector, exhausted integer source, or index error. -/
def read_block (data : List ℚ) (rx ry : List Nat) (mask : bitmask) (Q maxVal : ℚ)
    (blob : Blob) (offset : Nat) : Option (List ℚ × Nat) := do
  let flagsByte ← readU8 blob offset
  let flags := flagsByte &&& 63
  if 4 ≤ flags then none
  else if flags = 0 then
    (dloop rx ry).foldlM (rawStep mask blob) (data, offset + 1)
  else do
    let mv ← blockMinVal blob (offset + 1) flagsByte
    let mval := mv.1
    if flags &&& 2 ≠ 0 then do
      let d ← (dloop rx ry).foldlM (constStep mask mval) data
      pure (d, mv.2)
    else do
      let iv ← read_qval blob mv.2
      match iv.1 with
      | none => none
      | some ival => do
        let st ← (dloop rx ry).foldlM (qStep mask Q maxVal mval) (data, ival)
        pure (st.1, iv.2)

/-- The magic token `b"CntZImage "`. -/
def magicBytes : List Nat := [67, 110, 116, 90, 73, 109, 97, 103, 101, 32]

/-- Bit patterns of float32 whose IEEE value compares equal to `1.0`:
exactly `0x3F800000`. -/
def fl32IsOne (bits : Nat) : Bool := bits == 0x3F800000

/-- Bit patterns of float32 whose IEEE value compares equal to `0.0`:
exactly `+0.0` and `-0.0`. -/
def fl32IsZero (bits : Nat) : Bool := bits == 0 || bits == 0x80000000

/-- Decode session state (`class lerc`).  `m_present` models the presence of
the `m_*` attributes set only when the first block-grid descriptor is accepted
as a mask.  On Python exception paths the fields assigned before the exception
keep their values and `valid` is `false`.  `v_maxValBits` keeps the raw float32
pattern of the value descriptor's max value; `m_maxVal` is stored as a rational
(the acceptance check restricts it to exactly `1.0` or `0.0`). -/
structure lerc where
  valid : Bool := false
  h : Nat := 0
  w : Nat := 0
  u : ℚ := 0
  m_present : Bool := false
  m_nbY : Nat := 0
  m_nbX : Nat := 0
  m_nB : Nat := 0
  m_maxVal : ℚ := 0
  v_nbY : Nat := 0
  v_nbX : Nat := 0
  v_nB : Nat := 0
  v_maxValBits : Nat := 0
  mask : Option bitmask := none
deriving DecidableEq

/-- Header parsing (`lerc.__init__`).  Mirrors the Python control flow: the
magic check, the `"<IIIId"` unpack at 10 (atomic: all five fields or an
exception), `u *= 2`, the version/type assert, the first descriptor unpack at
34, and — when the blob can also hold a mask descriptor — the mask-validation
assert followed by the second descriptor unpack at `50 + nB`.  Every exception
is caught and leaves `valid := false` with the already-assigned fields kept. -/
def lerc.init (blob : Blob) : lerc :=
  if blob.take 10 ≠ magicBytes then { valid := false }
  else
    match readU32 blob 10, readU32 blob 14, readU32 blob 18, readU32 blob 22,
        readF64 blob 26 with
    | some fileVersion, some imageType, some hh, some ww, some uu =>
      if fileVersion = 11 ∧ imageType = 8 then
        match readU32 blob 34, readU32 blob 38, readU32 blob 42, readU32 blob 46 with
        | some nbY, some nbX, some nB, some vbits =>
          if 66 + nB ≤ blob.length then
            if (nbX ||| nbY) = 0 ∧ (fl32IsOne vbits || fl32IsZero vbits) then
              match readU32 blob (50 + nB), readU32 blob (54 + nB), readU32 blob (58 + nB),
                  readU32 blob (62 + nB) with
              | some nbY2, some nbX2, some nB2, some vbits2 =>
                { valid := true, h := hh, w := ww, u := 2 * uu, m_present := true,
                  m_nbY := nbY, m_nbX := nbX, m_nB := nB,
                  m_maxVal := if fl32IsOne vbits then 1 else 0,
                  v_nbY := nbY2, v_nbX := nbX2, v_nB := nB2, v_maxValBits := vbits2 }
              | _, _, _, _ =>
                { valid := false, h := hh, w := ww, u := 2 * uu, m_present := true,
                  m_nbY := nbY, m_nbX := nbX, m_nB := nB,
                  m_maxVal := if fl32IsOne vbits then 1 else 0 }
            else { valid := false, h := hh, w := ww, u := 2 * uu }
          else
            { valid := true, h := hh, w := ww, u := 2 * uu, m_present := false,
              v_nbY := nbY, v_nbX := nbX, v_nB := nB, v_maxValBits := vbits }
        | _, _, _, _ => { valid := false, h := hh, w := ww, u := 2 * uu }
      else { valid := false, h := hh, w := ww, u := 2 * uu }
    | _, _, _, _, _ => { valid := false }

/-- Mirrors `lerc.decode_mask`; `none` models a raised exception (here: the
`AttributeError` on the `m_*` attributes of a session without a mask
descriptor).  Note that a failed RLE decode (`decode_RLE` returning `None`)
flows into the `data is None` default of `bitmask.__init__` and silently
yields a uniform all-255 fill. -/
def lerc.decode_mask (s : lerc) (blob : Blob) : Option bitmask :=
  if s.m_present = false then none
  else if s.m_nB = 0 then
    some (bitmask.init s.w s.h (s.m_maxVal * 255).floor.toNat none)
  else
    match decode_RLE blob 50 (s.m_nB : Int) with
    | none => none
    | some r => some (bitmask.init s.w s.h 255 r)

/-- The list `range(0, n, step)` for positive `step`. -/
def rangeStep (n step : Nat) : List Nat :=
  (List.range ((n + step - 1) / step)).map (· * step)

/-- Decodes all tiles (`lerc.read_tiles`); `none` models a raised exception
(`AttributeError` on `m_nB`, `ZeroDivisionError` on zero block counts, the
`range` error on a zero step, or any `read_block` failure). -/
def lerc.read_tiles (s : lerc) (blob : Blob) (mask : bitmask) : Option (List ℚ) := do
  if s.m_present = false then none
  else if s.v_nbY = 0 ∨ s.v_nbX = 0 then none
  else
    let bh := s.h / s.v_nbY
    let bw := s.w / s.v_nbX
    if bw = 0 ∨ bh = 0 then none
    else do
      let st ← (dloop (rangeStep s.w bw) (rangeStep s.h bh)).foldlM
        (fun (st : List ℚ × Nat) xy =>
          read_block st.1 (List.range' xy.1 (min bw (s.w - xy.1)))
            (List.range' xy.2 (min bh (s.h - xy.2))) mask s.u (fl32ToRatD s.v_maxValBits)
            blob st.2)
        (List.replicate (s.w * s.h) (0 : ℚ), 66 + s.m_nB)
      pure st.1

/-- The decoder entry (`lerc.decode`).  Returns the updated session state plus
the data array; a `none` result covers both the invalid-session early return
`(None, None, None)` and any raised exception. -/
def lerc.decode (s : lerc) (blob : Blob) : lerc × Option (List ℚ) :=
  if s.valid = false then (s, none)
  else
    match s.mask with
    | some m => (s, lerc.read_tiles s blob m)
    | none =>
      match lerc.decode_mask s blob with
      | none => (s, none)
      | some m => ({ s with mask := some m },
          lerc.read_tiles { s with mask := some m } blob m)



/-- MSB-first concatenation of `nbits`-wide values into one natural: the
packed bit stream of the reference packer. -/
def packStream (nbits : Nat) : List Nat → Nat
  | [] => 0
  | v :: rest => v * 2 ^ (rest.length * nbits) + packStream nbits rest

/-- Little-endian byte quadruple of a 32-bit word. -/
def leBytes4 (w : Nat) : List Nat :=
  [w &&& 255, (w >>> 8) &&& 255, (w >>> 16) &&& 255, (w >>> 24) &&& 255]

/-- The 32-bit words of the packed stream, most significant first: the stream
is padded with zero bits at the low end to a whole number of 32-bit words. -/
def packWords (nbits : Nat) (vals : List Nat) : List Nat :=
  let L := vals.length * nbits
  let nw := (L + 31) / 32
  let M := packStream nbits vals <<< (32 * nw - L)
  (List.range nw).map (fun j => (M >>> (32 * (nw - 1 - j))) &&& (2 ^ 32 - 1))

/-- Reference byte layout: each word stored little-endian, with the unused
low-order bytes of the last (partial) word omitted. -/
def packBytes (nbits : Nat) (vals : List Nat) : List Nat :=
  let nbytes := (vals.length * nbits + 7) / 8
  let ws := packWords nbits vals
  ws.dropLast.flatMap leBytes4
    ++ (if ws = [] then []
        else (leBytes4 (ws.getLast?.getD 0)).drop ((4 - (nbytes - nbytes / 4 * 4)) % 4))

/-- The reference MSB-first packer following the format: a header byte with
bits-per-value in the low six bits and the count-field width selector in the
top two, the count field (one byte when the count is below 256, else two,
else four, little-endian), then the packed words with the unused low-order
trailing bytes of the last word omitted. -/
def packQval (nbits : Nat) (vals : List Nat) : List Nat :=
  let count := vals.length
  let cf : Nat × List Nat :=
    if count < 256 then (2, [count])
    else if count < 65536 then (1, [count % 256, count / 256])
    else (0, [count % 256, count / 256 % 256, count / 65536 % 256, count / 16777216])
  (nbits ||| (cf.1 <<< 6)) :: (cf.2 ++ packBytes nbits vals)

/-- MSB-first chunk extraction: `count` successive `nbits`-wide slices taken
from the top of a stream `S` of bit length `SL`. -/
def chunkList (nbits : Nat) : Nat → Nat → Nat → List Nat
  | 0, _, _ => []
  | count + 1, S, SL =>
    ((S >>> (SL - nbits)) &&& (2 ^ nbits - 1))
      :: chunkList nbits count (S % 2 ^ (SL - nbits)) (SL - nbits)

/-- The value of a word sequence read MSB-first as one big natural. -/
def wordsVal : List Nat → Nat
  | [] => 0
  | w :: ws => w * 2 ^ (32 * ws.length) + wordsVal ws

/-- The bit stream represented by the unpack-loop state: the low `bl` bits of
the current word followed by the remaining words. -/
def streamVal (v bl : Nat) (src : List Nat) : Nat :=
  (v % 2 ^ bl) * 2 ^ (32 * src.length) + wordsVal src

/-- A complete well-formed 72-byte blob: 1x1 image, accepted mask descriptor
with a 5-byte RLE region (a one-byte literal run `0x80` plus the end
sentinel `0x8000`), a value descriptor with a 1x1 block grid, and a single
constant-mode value block. -/
def blobGood : Blob :=
  [67, 110, 116, 90, 73, 109, 97, 103, 101, 32,
   11, 0, 0, 0, 8, 0, 0, 0, 1, 0, 0, 0, 1, 0, 0, 0,
   0, 0, 0, 0, 0, 0, 0, 0,
   0, 0, 0, 0, 0, 0, 0, 0, 5, 0, 0, 0, 0, 0, 128, 63,
   1, 0, 128, 0, 128,
   1, 0, 0, 0, 1, 0, 0, 0, 0, 0, 0, 0, 0, 0, 0, 0,
   2]

/-- `blobGood` with the RLE end sentinel corrupted: byte 54 changed from
`128` to `0`, so the 16-bit value at the cursor is `0` instead of `-32768`. -/
def blobC3 : Blob :=
  [67, 110, 116, 90, 73, 109, 97, 103, 101, 32,
   11, 0, 0, 0, 8, 0, 0, 0, 1, 0, 0, 0, 1, 0, 0, 0,
   0, 0, 0, 0, 0, 0, 0, 0,
   0, 0, 0, 0, 0, 0, 0, 0, 5, 0, 0, 0, 0, 0, 128, 63,
   1, 0, 128, 0, 0,
   1, 0, 0, 0, 1, 0, 0, 0, 0, 0, 0, 0, 0, 0, 0, 0,
   2]

/-- The session state parsed from `blobGood` and from `blobC3` (they differ
only inside the RLE byte region, which `__init__` does not read). -/
def c3State : lerc :=
  { valid := true, h := 1, w := 1, u := 2 * fl64ToRatD 0,
    m_present := true, m_nbY := 0, m_nbX := 0, m_nB := 5, m_maxVal := 1,
    v_nbY := 1, v_nbX := 1, v_nB := 0, v_maxValBits := 0, mask := none }

/-- A blob of length 66 whose first block-grid descriptor has nonzero block
counts (`nbY = nbX = 1`), so the mask-validation assert fails although the
blob is long enough (`66 + nB = 66`) to hold a mask descriptor. -/
def blobC2 : Blob :=
  [67, 110, 116, 90, 73, 109, 97, 103, 101, 32,
   11, 0, 0, 0, 8, 0, 0, 0, 1, 0, 0, 0, 1, 0, 0, 0,
   0, 0, 0, 0, 0, 0, 0, 0,
   1, 0, 0, 0, 1, 0, 0, 0, 0, 0, 0, 0, 0, 0, 0, 0,
   0, 0, 0, 0, 0, 0, 0, 0, 0, 0, 0, 0, 0, 0, 0, 0]

/-- A concrete mask-only session used as the C8 witness. -/
def c8Session : lerc :=
  { valid := true, h := 2, w := 3, m_present := true, m_nB := 0, m_maxVal := 1 }

/-- Specification-level restatement of the RLE decoder, written from the
claim's wording: repeatedly read a signed 16-bit little-endian count; a
negative count replicates the following byte `-count` times and advances the
source cursor by one byte, a non-negative count copies the next `count` bytes
verbatim and advances by `count`; each iteration deducts
`2 + (1 if negative else count)` from the remaining budget; the loop stops
when fewer than 3 budget bytes remain, and the decode succeeds with the
accumulated bytes exactly when the signed 16-bit value then at the cursor is
the end sentinel `-32768`, failing with no result otherwise. -/
def decodeRLE_spec (blob : Blob) (offset : Nat) (size : Int) : Option (Option (List Nat)) :=
  if _h : 2 < size then
    match readI16 blob offset with
    | none => none
    | some count =>
      let chunk : Option (List Nat) :=
        if count < 0 then (readU8 blob (offset + 2)).map (fun b => List.replicate (-count).toNat b)
        else readBytes blob (offset + 2) count.toNat
      match chunk with
      | none => none
      | some bs =>
        match decodeRLE_spec blob (offset + 2 + (if count < 0 then 1 else count.toNat))
            (size - (2 + (if count < 0 then 1 else count))) with
        | none => none
        | some none => some none
        | some (some rest) => some (some (bs ++ rest))
  else
    match readI16 blob offset with
    | none => none
    | some v => if v = -32768 then some (some []) else some none
termination_by size.toNat
decreasing_by
  split <;> omega

/-- C6: the implemented RLE decoder agrees with the specification's
description of it on every buffer, offset and byte budget. -/
theorem c6_decode_RLE_matches_spec (blob : Blob) (offset : Nat) (size : Int) :
    decode_RLE blob offset size = decodeRLE_spec blob offset size := by
  induction offset, size using decode_RLE.induct blob with
  | case1 offset size hsz hread =>
    rw [decode_RLE, decodeRLE_spec]
    simp [hsz, hread]
  | case2 offset size hsz count hread hneg hb =>
    rw [decode_RLE, decodeRLE_spec]
    simp [hsz, hread, hneg, hb]
  | case3 offset size hsz count hread hneg b hb hrec ih =>
    rw [decode_RLE, decodeRLE_spec]
    rw [ih] at hrec
    simp only [hsz, hread, hneg, hb, dif_pos, if_pos]
    have h3 : size - (2 + 1) = size - 3 := by ring
    simp [h3, ih, hrec]
  | case4 offset size hsz count hread hneg b hb hrec ih =>
    rw [decode_RLE, decodeRLE_spec]
    rw [ih] at hrec
    simp only [hsz, hread, hneg, hb, dif_pos, if_pos]
    have h3 : size - (2 + 1) = size - 3 := by ring
    simp [h3, ih, hrec]
  | case5 offset size hsz count hread hneg b hb rest hrec ih =>
    rw [decode_RLE, decodeRLE_spec]
    rw [ih] at hrec
    simp only [hsz, hread, hneg, hb, dif_pos, if_pos]
    have h3 : size - (2 + 1) = size - 3 := by ring
    simp [h3, ih, hrec]
  | case6 offset size hsz count hread hneg hbs =>
    rw [decode_RLE, decodeRLE_spec]
    simp [hsz, hread, hneg, hbs]
  | case7 offset size hsz count hread hneg bs hbs hrec ih =>
    rw [decode_RLE, decodeRLE_spec]
    rw [ih] at hrec
    have h3 : size - (2 + count) = size - 2 - count := by ring
    simp [hsz, hread, hneg, hbs, h3, ih, hrec]
  | case8 offset size hsz count hread hneg bs hbs hrec ih =>
    rw [decode_RLE, decodeRLE_spec]
    rw [ih] at hrec
    have h3 : size - (2 + count) = size - 2 - count := by ring
    simp [hsz, hread, hneg, hbs, h3, ih, hrec]
  | case9 offset size hsz count hread hneg bs hbs rest hrec ih =>
    rw [decode_RLE, decodeRLE_spec]
    rw [ih] at hrec
    have h3 : size - (2 + count) = size - 2 - count := by ring
    simp [hsz, hread, hneg, hbs, h3, ih, hrec]
  | case10 offset size hsz hread =>
    rw [decode_RLE, decodeRLE_spec]
    simp [hsz, hread]
  | case11 offset size hsz hread =>
    rw [decode_RLE, decodeRLE_spec]
    simp [hsz, hread]
  | case12 offset size hsz count hread hne =>
    rw [decode_RLE, decodeRLE_spec]
    simp [hsz, hread, hne]

/-- A 4-byte little-endian read succeeds on a list of length at least 4. -/
theorem le32_isSome (l : List Nat) (h : 4 ≤ l.length) : ∃ v, le32 l = some v := by
  match l with
  | b0 :: b1 :: b2 :: b3 :: rest => exact ⟨_, rfl⟩
  | [] | [_] | [_, _] | [_, _, _] => simp at h

/-- An 8-byte little-endian read succeeds on a list of length at least 8. -/
theorem le64_isSome (l : List Nat) (h : 8 ≤ l.length) : ∃ v, le64 l = some v := by
  match l with
  | b0 :: b1 :: b2 :: b3 :: b4 :: b5 :: b6 :: b7 :: rest => exact ⟨_, rfl⟩
  | [] | [_] | [_, _] | [_, _, _] | [_, _, _, _] | [_, _, _, _, _]
  | [_, _, _, _, _, _] | [_, _, _, _, _, _, _] => simp at h

/-- `readU32` succeeds whenever the blob extends 4 bytes past the offset. -/
theorem readU32_isSome (blob : Blob) (off : Nat) (h : off + 4 ≤ blob.length) :
    ∃ v, readU32 blob off = some v := by
  apply le32_isSome
  rw [List.length_drop]
  omega

/-- `readF64` succeeds whenever the blob extends 8 bytes past the offset. -/
theorem readF64_isSome (blob : Blob) (off : Nat) (h : off + 8 ≤ blob.length) :
    ∃ v, readF64 blob off = some v := by
  obtain ⟨v, hv⟩ := le64_isSome (blob.drop off) (by rw [List.length_drop]; omega)
  exact ⟨_, by rw [readF64, hv]; rfl⟩

/-- A bitwise-or of naturals is zero exactly when both operands are. -/
theorem lor_eq_zero_iff (a b : Nat) : a ||| b = 0 ↔ a = 0 ∧ b = 0 := by
  constructor
  · intro h
    have hbit : ∀ i, Nat.testBit (a ||| b) i = false := by
      intro i
      rw [h]
      exact Nat.zero_testBit i
    constructor
    · apply Nat.eq_of_testBit_eq
      intro i
      have := hbit i
      rw [Nat.testBit_or] at this
      simpa using (Bool.or_eq_false_iff.mp this).1
    · apply Nat.eq_of_testBit_eq
      intro i
      have := hbit i
      rw [Nat.testBit_or] at this
      simpa using (Bool.or_eq_false_iff.mp this).2
  · rintro ⟨rfl, rfl⟩
    simp

/-- In-range pixel coordinates give an in-range linear index. -/
theorem linearIndex_lt {x y w h : Nat} (hx : x < w) (hy : y < h) :
    y * w + x < w * h := by
  calc y * w + x < (y + 1) * w := by nlinarith
    _ ≤ h * w := Nat.mul_le_mul_right w hy
    _ = w * h := Nat.mul_comm h w

/-- Any byte with all bits set tests positive under every single-bit probe. -/
theorem probe_255 {k : Nat} (hk : k < 8) : (255 &&& (128 >>> k) != 0) = true := by
  interval_cases k <;> decide

/-- C8: a uniform-fill validity mask built by `decode_mask` from a mask
descriptor with `byteCount = 0` answers `true` at every in-range pixel when
the fill value is `1.0`, and `false` at every in-range pixel when it is
`0.0`. -/
theorem c8_uniform_mask_at (s : lerc) (blob : Blob) (x y : Nat)
    (hx : x < s.w) (hy : y < s.h) (hp : s.m_present = true) (hb : s.m_nB = 0) :
    (s.m_maxVal = 1 →
      ∃ m, lerc.decode_mask s blob = some m ∧ m.at' x y = some true)
    ∧ (s.m_maxVal = 0 →
      ∃ m, lerc.decode_mask s blob = some m ∧ m.at' x y = some false) := by
  have hidx : y * s.w + x < s.w * s.h := linearIndex_lt hx hy
  have hdiv : (y * s.w + x) / 8 < (s.w * s.h + 7) / 8 := by omega
  have hmod : (y * s.w + x) % 8 < 8 := Nat.mod_lt _ (by norm_num)
  constructor
  · intro h1
    refine ⟨bitmask.init s.w s.h 255 none, ?_, ?_⟩
    · rw [lerc.decode_mask]
      simp [hp, hb, h1]
      have hfl : (Rat.floor (255 : ℚ)).toNat = 255 := by decide
      rw [hfl]
    · simp only [bitmask.init, bitmask.at', List.get?_eq_getElem?,
        List.getElem?_replicate_of_lt hdiv, Option.map_some']
      rw [probe_255 hmod]
  · intro h0
    refine ⟨bitmask.init s.w s.h 0 none, ?_, ?_⟩
    · rw [lerc.decode_mask]
      simp [hp, hb, h0]
      have hfl : (Rat.floor (0 : ℚ)).toNat = 0 := by decide
      rw [hfl]
    · simp only [bitmask.init, bitmask.at', List.get?_eq_getElem?,
        List.getElem?_replicate_of_lt hdiv, Option.map_some']
      simp

/-- C8 witness at a concrete session and pixel. -/
theorem c8_uniform_mask_at_witness :
    ∃ m, lerc.decode_mask c8Session [] = some m ∧ m.at' 2 1 = some true := by
  have h := c8_uniform_mask_at c8Session [] 2 1 (by decide) (by decide) (by decide)
    (by decide)
  exact h.1 rfl

/-- C10: `decode` never modifies the header state parsed by `__init__`: every
parsed field is unchanged, the only state it may add is the cached validity
mask (populated from `decode_mask` on a first call when absent), and calling
`decode` again leaves the session state fixed. -/
theorem c10_decode_frame (s : lerc) (blob : Blob) :
    ((lerc.decode s blob).1.valid = s.valid
      ∧ (lerc.decode s blob).1.h = s.h
      ∧ (lerc.decode s blob).1.w = s.w
      ∧ (lerc.decode s blob).1.u = s.u
      ∧ (lerc.decode s blob).1.m_present = s.m_present
      ∧ (lerc.decode s blob).1.m_nbY = s.m_nbY
      ∧ (lerc.decode s blob).1.m_nbX = s.m_nbX
      ∧ (lerc.decode s blob).1.m_nB = s.m_nB
      ∧ (lerc.decode s blob).1.m_maxVal = s.m_maxVal
      ∧ (lerc.decode s blob).1.v_nbY = s.v_nbY
      ∧ (lerc.decode s blob).1.v_nbX = s.v_nbX
      ∧ (lerc.decode s blob).1.v_nB = s.v_nB
      ∧ (lerc.decode s blob).1.v_maxValBits = s.v_maxValBits)
    ∧ ((lerc.decode s blob).1.mask = s.mask
        ∨ (s.mask = none ∧ (lerc.decode s blob).1.mask = lerc.decode_mask s blob))
    ∧ (lerc.decode (lerc.decode s blob).1 blob).1 = (lerc.decode s blob).1 := by
  rcases hv : s.valid with _ | _
  · simp [lerc.decode, hv]
  · rcases hm : s.mask with _ | m
    · rcases hdm : lerc.decode_mask s blob with _ | n
      · simp [lerc.decode, hv, hm, hdm]
      · simp [lerc.decode, hv, hm, hdm]
    · simp [lerc.decode, hv, hm]

/-- C1: when the blob is long enough to also contain a mask descriptor
(length at least `66 + nB`), the first block-grid descriptor is accepted as
the mask descriptor only if its block-row and block-column counts are both
zero and its fill pattern is a float32 equal to `1.0` or to `0.0`; every
first descriptor with a nonzero block count is rejected. -/
theorem c1_mask_descriptor_acceptance (blob : Blob) (nbY nbX nB vbits : Nat)
    (hY : readU32 blob 34 = some nbY) (hX : readU32 blob 38 = some nbX)
    (hB : readU32 blob 42 = some nB) (hV : readU32 blob 46 = some vbits)
    (hlen : 66 + nB ≤ blob.length) :
    ((lerc.init blob).m_present = true →
      nbY = 0 ∧ nbX = 0 ∧ (fl32IsOne vbits || fl32IsZero vbits) = true)
    ∧ ((nbY ≠ 0 ∨ nbX ≠ 0) → (lerc.init blob).m_present = false) := by
  have hL : 66 ≤ blob.length := by omega
  obtain ⟨fv, h10⟩ := readU32_isSome blob 10 (by omega)
  obtain ⟨it, h14⟩ := readU32_isSome blob 14 (by omega)
  obtain ⟨hh, h18⟩ := readU32_isSome blob 18 (by omega)
  obtain ⟨ww, h22⟩ := readU32_isSome blob 22 (by omega)
  obtain ⟨uu, h26⟩ := readF64_isSome blob 26 (by omega)
  obtain ⟨a, h50⟩ := readU32_isSome blob (50 + nB) (by omega)
  obtain ⟨b, h54⟩ := readU32_isSome blob (54 + nB) (by omega)
  obtain ⟨c, h58⟩ := readU32_isSome blob (58 + nB) (by omega)
  obtain ⟨d, h62⟩ := readU32_isSome blob (62 + nB) (by omega)
  rw [lerc.init]
  by_cases hmg : blob.take 10 ≠ magicBytes
  · simp [hmg]
  · simp only [hmg, if_false, h10, h14, h18, h22, h26, hY, hX, hB, hV, h50, h54,
      h58, h62]
    by_cases hvt : fv = 11 ∧ it = 8
    · simp only [if_pos hvt, if_pos hlen]
      by_cases hacc : (nbX ||| nbY) = 0 ∧ (fl32IsOne vbits || fl32IsZero vbits) = true
      · have hzero := (lor_eq_zero_iff nbX nbY).mp hacc.1
        simp [hacc, hzero.1, hzero.2, hacc.2]
      · simp only [if_neg hacc]
        constructor
        · intro hfalse
          simp at hfalse
        · intro _
          trivial
    · simp [hvt]

/-- C1 witness: `blobGood` is long enough, its first descriptor has zero
block counts and fill `1.0`, and it is indeed accepted as a mask. -/
theorem c1_mask_descriptor_acceptance_witness :
    ((lerc.init blobGood).m_present = true →
      0 = 0 ∧ 0 = 0 ∧ (fl32IsOne 1065353216 || fl32IsZero 1065353216) = true)
    ∧ ((0 ≠ 0 ∨ 0 ≠ 0) → (lerc.init blobGood).m_present = false) :=
  c1_mask_descriptor_acceptance blobGood 0 0 5 1065353216 (by decide) (by decide)
    (by decide) (by decide) (by decide)

/-- C2 counterexample: `blobC2` is long enough to hold a mask descriptor
(`66 + nB = 66 = length`) and its first descriptor fails mask validation
(nonzero block counts), yet the session does not remain valid — `__init__`
asserts and marks it invalid instead of reinterpreting the descriptor. -/
theorem c2_counterexample :
    readU32 blobC2 34 = some 1 ∧ readU32 blobC2 42 = some 0
    ∧ blobC2.length = 66 ∧ (lerc.init blobC2).valid = false
    ∧ (lerc.init blobC2).m_present = false := by
  refine ⟨by decide, by decide, by decide, ?_, ?_⟩ <;>
    · show _ = _
      rfl

/-- C2 (amended): for every blob long enough to hold a mask descriptor whose
first block-grid descriptor fails the mask validation, the session is marked
invalid (the failed assert is caught and sets `valid = False`); the
reinterpretation of the first descriptor as the value descriptor happens only
when the blob is too short to hold a separate mask region. -/
theorem c2_failed_mask_validation_invalidates (blob : Blob) (nbY nbX nB vbits : Nat)
    (hY : readU32 blob 34 = some nbY) (hX : readU32 blob 38 = some nbX)
    (hB : readU32 blob 42 = some nB) (hV : readU32 blob 46 = some vbits)
    (hlen : 66 + nB ≤ blob.length)
    (hfail : ¬((nbX ||| nbY) = 0 ∧ (fl32IsOne vbits || fl32IsZero vbits) = true)) :
    (lerc.init blob).valid = false ∧ (lerc.init blob).m_present = false := by
  have hL : 66 ≤ blob.length := by omega
  obtain ⟨fv, h10⟩ := readU32_isSome blob 10 (by omega)
  obtain ⟨it, h14⟩ := readU32_isSome blob 14 (by omega)
  obtain ⟨hh, h18⟩ := readU32_isSome blob 18 (by omega)
  obtain ⟨ww, h22⟩ := readU32_isSome blob 22 (by omega)
  obtain ⟨uu, h26⟩ := readF64_isSome blob 26 (by omega)
  rw [lerc.init]
  by_cases hmg : blob.take 10 ≠ magicBytes
  · simp [hmg]
  · simp only [hmg, if_false, h10, h14, h18, h22, h26, hY, hX, hB, hV]
    by_cases hvt : fv = 11 ∧ it = 8
    · simp only [Bool.or_eq_true] at hfail
      simp [if_pos hvt, if_pos hlen, if_neg hfail]
    · simp [hvt]

/-- C2 amended-claim witness at the concrete blob `blobC2`. -/
theorem c2_failed_mask_validation_invalidates_witness :
    (lerc.init blobC2).valid = false ∧ (lerc.init blobC2).m_present = false :=
  c2_failed_mask_validation_invalidates blobC2 1 1 0 0 (by decide) (by decide)
    (by decide) (by decide) (by decide) (by decide)

theorem c3_corrupt_sentinel_not_invalid :
    (lerc.init blobC3).valid = true
    ∧ decode_RLE blobC3 50 5 = some none
    ∧ (lerc.decode (lerc.init blobC3) blobC3).1.mask = some ⟨1, 1, [255]⟩
    ∧ (lerc.decode (lerc.init blobC3) blobC3).2 = some [0]
    ∧ decode_RLE blobGood 50 5 = some (some [128])
    ∧ (lerc.decode (lerc.init blobGood) blobGood).2 = some [0]
    ∧ (lerc.decode (lerc.init blobGood) blobGood).1.mask = some ⟨1, 1, [128]⟩ := by
  have hinitC : lerc.init blobC3 = c3State := rfl
  have hinitG : lerc.init blobGood = c3State := rfl
  have hrleC : decode_RLE blobC3 50 5 = some none := by
    rw [decode_RLE]
    norm_num [blobC3, readI16, readU16, le16, readBytes, readU8]
    rw [decode_RLE]
    norm_num [blobC3, readI16, readU16, le16]
  have hrleG : decode_RLE blobGood 50 5 = some (some [128]) := by
    rw [decode_RLE]
    norm_num [blobGood, readI16, readU16, le16, readBytes, readU8]
    rw [decode_RLE]
    norm_num [blobGood, readI16, readU16, le16]
  have hdmC : lerc.decode_mask c3State blobC3 = some ⟨1, 1, [255]⟩ := by
    rw [lerc.decode_mask]
    norm_num [c3State]
    rw [hrleC]
    rfl
  have hdmG : lerc.decode_mask c3State blobGood = some ⟨1, 1, [128]⟩ := by
    rw [lerc.decode_mask]
    norm_num [c3State]
    rw [hrleG]
    rfl
  have hdecC : lerc.decode (lerc.init blobC3) blobC3
      = ({ c3State with mask := some ⟨1, 1, [255]⟩ }, some [0]) := by
    rw [hinitC, lerc.decode, if_neg (by decide : ¬(c3State.valid = false))]
    simp only [show c3State.mask = none from rfl]
    rw [hdmC]
    rfl
  have hdecG : lerc.decode (lerc.init blobGood) blobGood
      = ({ c3State with mask := some ⟨1, 1, [128]⟩ }, some [0]) := by
    rw [hinitG, lerc.decode, if_neg (by decide : ¬(c3State.valid = false))]
    simp only [show c3State.mask = none from rfl]
    rw [hdmG]
    rfl
  refine ⟨rfl, hrleC, ?_, ?_, hrleG, ?_, ?_⟩
  · rw [hdecC]
  · rw [hdecC]
  · rw [hdecG]
  · rw [hdecG]

/-- A membership fact for the double loop. -/
theorem mem_dloop {x y : Nat} {rx ry : List Nat} (hx : x ∈ rx) (hy : y ∈ ry) :
    (x, y) ∈ dloop rx ry := by
  simp only [dloop, List.mem_flatMap, List.mem_map]
  exact ⟨y, hy, x, hx, rfl⟩

/-- The constant-mode fold preserves entries already equal to `mval`. -/
theorem constFold_preserves (mask : bitmask) (mval : ℚ) :
    ∀ (ps : List (Nat × Nat)) (d0 d' : List ℚ),
      ps.foldlM (constStep mask mval) d0 = some d' →
      ∀ i, d0.get? i = some mval → d'.get? i = some mval := by
  intro ps
  induction ps with
  | nil =>
    intro d0 d' h i hi
    simp only [List.foldlM_nil] at h
    cases h
    exact hi
  | cons p ps ih =>
    intro d0 d' h i hi
    rw [List.foldlM_cons] at h
    rcases Option.bind_eq_some.mp h with ⟨d1, h1, h2⟩
    refine ih d1 d' h2 i ?_
    rw [constStep, setQ] at h1
    split at h1
    · cases h1
      by_cases hij : p.2 * mask.w + p.1 = i
      · subst hij
        simp only [List.get?_eq_getElem?] at hi ⊢
        rw [List.getElem?_set_self (by assumption)]
      · simp only [List.get?_eq_getElem?] at hi ⊢
        rw [List.getElem?_set_ne hij]
        simpa using hi
    · cases h1

/-- Every pixel visited by the constant-mode fold ends up holding `mval`. -/
theorem constFold_mem (mask : bitmask) (mval : ℚ) :
    ∀ (ps : List (Nat × Nat)) (d0 d' : List ℚ),
      ps.foldlM (constStep mask mval) d0 = some d' →
      ∀ p ∈ ps, d'.get? (p.2 * mask.w + p.1) = some mval := by
  intro ps
  induction ps with
  | nil =>
    intro d0 d' h p hp
    cases hp
  | cons p0 ps ih =>
    intro d0 d' h p hp
    rw [List.foldlM_cons] at h
    rcases Option.bind_eq_some.mp h with ⟨d1, h1, h2⟩
    rcases List.mem_cons.mp hp with rfl | hmem
    · refine constFold_preserves mask mval ps d1 d' h2 _ ?_
      rw [constStep, setQ] at h1
      split at h1
      · cases h1
        simp only [List.get?_eq_getElem?]
        rw [List.getElem?_set_self (by assumption)]
      · cases h1
    · exact ih d1 d' h2 p hmem

/-- Entries produced by the quantized-mode fold are either untouched or
clamped to `maxVal`. -/
theorem qFold_bound (mask : bitmask) (Q maxVal mval : ℚ) :
    ∀ (ps : List (Nat × Nat)) (st0 st' : List ℚ × List Nat),
      ps.foldlM (qStep mask Q maxVal mval) st0 = some st' →
      ∀ i q, st'.1.get? i = some q → st0.1.get? i = some q ∨ q ≤ maxVal := by
  intro ps
  induction ps with
  | nil =>
    intro st0 st' h i q hq
    simp only [List.foldlM_nil] at h
    cases h
    exact Or.inl hq
  | cons p ps ih =>
    intro st0 st' h i q hq
    rw [List.foldlM_cons] at h
    rcases Option.bind_eq_some.mp h with ⟨st1, h1, h2⟩
    rcases ih st1 st' h2 i q hq with h3 | h3
    · rw [qStep] at h1
      rcases Option.bind_eq_some.mp h1 with ⟨b, hb, h4⟩
      rcases b with _ | _
      · rw [if_neg (by simp)] at h4
        cases h4
        exact Or.inl h3
      · rw [if_pos rfl] at h4
        rcases hsrc : st0.2 with _ | ⟨i0, rest⟩
        · rw [hsrc] at h4
          cases h4
        · rw [hsrc] at h4
          rcases Option.bind_eq_some.mp h4 with ⟨d1, h5, h6⟩
          cases h6
          rw [setQ] at h5
          split at h5
          · cases h5
            by_cases hij : p.2 * mask.w + p.1 = i
            · subst hij
              simp only [List.get?_eq_getElem?] at h3
              rw [List.getElem?_set_self (by assumption)] at h3
              cases h3
              exact Or.inr (min_le_right _ _)
            · simp only [List.get?_eq_getElem?] at h3 ⊢
              rw [List.getElem?_set_ne hij] at h3
              exact Or.inl h3
          · cases h5
    · exact Or.inr h3

theorem c4_constant_mode_fills_block (data : List ℚ) (rx ry : List Nat)
    (mask : bitmask) (Q maxVal : ℚ) (blob : Blob) (offset : Nat) (fb : Nat)
    (mval : ℚ) (moff : Nat) (data' : List ℚ) (offset' : Nat)
    (hfb : readU8 blob offset = some fb)
    (hbit : (fb &&& 63) &&& 2 ≠ 0)
    (hmv : blockMinVal blob (offset + 1) fb = some (mval, moff))
    (hrb : read_block data rx ry mask Q maxVal blob offset = some (data', offset'))
    (x y : Nat) (hx : x ∈ rx) (hy : y ∈ ry) :
    data'.get? (y * mask.w + x) = some mval := by
  rw [read_block, hfb] at hrb
  simp only [Option.bind_eq_bind, Option.some_bind] at hrb
  have h4 : ¬ (4 ≤ fb &&& 63) := by
    intro hge
    rw [if_pos hge] at hrb
    cases hrb
  rw [if_neg h4] at hrb
  have h0 : ¬ (fb &&& 63 = 0) := by
    intro h0
    rw [h0] at hbit
    exact hbit rfl
  rw [if_neg h0, hmv] at hrb
  simp only [Option.some_bind, if_pos hbit] at hrb
  rcases Option.bind_eq_some.mp hrb with ⟨d, hfold, heq⟩
  simp only [pure, Option.some.injEq, Prod.mk.injEq] at heq
  rcases heq with ⟨rfl, rfl⟩
  exact constFold_mem mask mval (dloop rx ry) data d hfold (x, y) (mem_dloop hx hy)

theorem c5_quantized_mode_clamped (data : List ℚ) (rx ry : List Nat)
    (mask : bitmask) (Q maxVal : ℚ) (blob : Blob) (offset : Nat) (fb : Nat)
    (data' : List ℚ) (offset' : Nat)
    (hfb : readU8 blob offset = some fb)
    (hflags : fb &&& 63 = 1)
    (hrb : read_block data rx ry mask Q maxVal blob offset = some (data', offset'))
    (i : Nat) (q : ℚ) (hq : data'.get? i = some q) (hne : data.get? i ≠ some q) :
    q ≤ maxVal := by
  rw [read_block, hfb] at hrb
  simp only [Option.bind_eq_bind, Option.some_bind] at hrb
  rw [if_neg (by rw [hflags]; decide)] at hrb
  rw [if_neg (by rw [hflags]; decide)] at hrb
  rcases hmv : blockMinVal blob (offset + 1) fb with _ | mv
  · rw [hmv] at hrb
    cases hrb
  · rw [hmv] at hrb
    simp only [Option.some_bind] at hrb
    rw [if_neg (by rw [hflags]; decide)] at hrb
    rcases hqv : read_qval blob mv.2 with _ | iv
    · rw [hqv] at hrb
      cases hrb
    · rw [hqv] at hrb
      simp only [Option.some_bind] at hrb
      rcases hiv : iv.1 with _ | ival
      · rw [hiv] at hrb
        cases hrb
      · rw [hiv] at hrb
        rcases Option.bind_eq_some.mp hrb with ⟨st, hfold, heq⟩
        simp only [pure, Option.some.injEq, Prod.mk.injEq] at heq
        rcases heq with ⟨h1, h2⟩
        subst h1
        rcases qFold_bound mask Q maxVal mv.1 (dloop rx ry) (data, ival) st hfold i q hq
          with h | h
        · exact absurd h hne
        · exact h

theorem c4_counterexample :
    (129 : Nat) &&& 63 = 1
    ∧ blockMinVal [129, 7, 136, 1, 3] 1 129 = some (7, 2)
    ∧ read_block [0] [0] [0] ⟨1, 1, [128]⟩ 1 100 [129, 7, 136, 1, 3] 0
        = some ([10], 5)
    ∧ ¬ (([10] : List ℚ).get? (0 * 1 + 0) = some 7) := by
  refine ⟨by decide, ?_, ?_, ?_⟩
  · norm_num [blockMinVal, readI8, readU8]
  · simp +decide [read_block, blockMinVal, dloop, qStep, constStep, rawStep,
      bitmask.at', setQ, readU8, readI8, read_qval, readU32List, readBytes,
      unpackLoop, assembleExtra]
    norm_num [Nat.shiftLeft_eq, Nat.shiftRight_eq_div_pow,
      show ((136 : Nat) &&& 63) = 8 from rfl, show ((255 : Nat) &&& 3) = 3 from rfl,
      min_def]
  · norm_num

theorem c5_counterexample :
    (131 : Nat) &&& 63 = 3
    ∧ read_block [0] [0] [0] ⟨1, 1, [0]⟩ 1 0 [131, 5] 0 = some ([5], 2)
    ∧ ¬ ((5 : ℚ) ≤ 0) := by
  refine ⟨by decide, ?_, by norm_num⟩
  simp +decide [read_block, blockMinVal, dloop, qStep, constStep, rawStep,
    bitmask.at', setQ, readU8, readI8]

theorem c4_constant_mode_fills_block_witness :
    ([(0 : ℚ)] : List ℚ).get? (0 * 1 + 0) = some 0 :=
  c4_constant_mode_fills_block [1] [0] [0] ⟨1, 1, [0]⟩ 0 0 [2] 0 2 0 1 [0] 1
    (by decide) (by decide) (by decide) (by decide) 0 0 (by decide) (by decide)

theorem c5_quantized_mode_clamped_witness : (3 : ℚ) ≤ 3 := by
  have hrb : read_block [0] [0] [0] ⟨1, 1, [128]⟩ 1 3 [129, 2, 136, 1, 4] 0
      = some ([3], 5) := by
    simp +decide [read_block, blockMinVal, dloop, qStep, constStep, rawStep,
      bitmask.at', setQ, readU8, readI8, read_qval, readU32List, readBytes,
      unpackLoop, assembleExtra]
    norm_num [Nat.shiftLeft_eq, Nat.shiftRight_eq_div_pow,
      show ((136 : Nat) &&& 63) = 8 from rfl, show ((255 : Nat) &&& 4) = 4 from rfl,
      min_def]
  exact c5_quantized_mode_clamped [0] [0] [0] ⟨1, 1, [128]⟩ 1 3 [129, 2, 136, 1, 4] 0
    129 [3] 5 (by decide) (by decide) hrb 0 3 (by decide) (by decide)

/-- A little-endian 32-bit read of well-formed bytes is below `2^32`. -/
theorem le32_bound (l : List Nat) (hb : ∀ b ∈ l, b < 256) (v : Nat)
    (h : le32 l = some v) : v < 2^32 := by
  match l, h with
  | b0 :: b1 :: b2 :: b3 :: rest, h =>
    rw [le32] at h
    cases h
    have h0 : b0 < 256 := hb b0 (by simp)
    have h1 : b1 < 256 := hb b1 (by simp)
    have h2 : b2 < 256 := hb b2 (by simp)
    have h3 : b3 < 256 := hb b3 (by simp)
    omega

/-- Bytes of a suffix are bytes of the whole blob. -/
theorem drop_bytes_lt (blob : Blob) (hb : ∀ b ∈ blob, b < 256) (off : Nat) :
    ∀ b ∈ blob.drop off, b < 256 :=
  fun b hmem => hb b (List.mem_of_mem_drop hmem)

/-- All words read by `readU32List` from a well-formed blob are 32-bit. -/
theorem readU32List_bound (blob : Blob) (hb : ∀ b ∈ blob, b < 256) :
    ∀ (n off : Nat) (ws : List Nat), readU32List blob off n = some ws →
      ∀ w ∈ ws, w < 2^32 := by
  intro n
  induction n with
  | zero =>
    intro off ws h w hw
    rw [readU32List] at h
    cases h
    cases hw
  | succ n ih =>
    intro off ws h w hw
    rw [readU32List] at h
    simp only [Option.bind_eq_bind] at h
    rcases Option.bind_eq_some.mp h with ⟨w0, hw0, h2⟩
    rcases Option.bind_eq_some.mp h2 with ⟨ws1, hws1, h3⟩
    simp only [pure, Option.some.injEq] at h3
    subst h3
    rcases List.mem_cons.mp hw with rfl | hmem
    · exact le32_bound _ (drop_bytes_lt blob hb off) w hw0
    · exact ih (off + 4) ws1 hws1 w hmem

/-- All bytes read by `readBytes` come from the blob. -/
theorem readBytes_mem (blob : Blob) :
    ∀ (n off : Nat) (bs : List Nat), readBytes blob off n = some bs →
      ∀ b ∈ bs, b ∈ blob := by
  intro n
  induction n with
  | zero =>
    intro off bs h b hbmem
    rw [readBytes] at h
    cases h
    cases hbmem
  | succ n ih =>
    intro off bs h b hbmem
    rw [readBytes] at h
    simp only [Option.bind_eq_bind] at h
    rcases Option.bind_eq_some.mp h with ⟨b0, hb0, h2⟩
    rcases Option.bind_eq_some.mp h2 with ⟨bs1, hbs1, h3⟩
    simp only [pure, Option.some.injEq] at h3
    subst h3
    rcases List.mem_cons.mp hbmem with rfl | hmem
    · rw [readU8] at hb0
      exact List.mem_of_mem_drop (List.mem_of_mem_head? hb0)
    · exact ih (off + 1) bs1 hbs1 b hmem

/-- The reassembled trailing word is a 32-bit value. -/
theorem assembleExtra_bound (e : Nat) :
    ∀ (bs : List Nat) (i : Nat), i + bs.length ≤ e → (∀ b ∈ bs, b < 256) →
      assembleExtra e bs i < 2^32 := by
  intro bs
  induction bs with
  | nil =>
    intro i _ _
    rw [assembleExtra]
    norm_num
  | cons b rest ih =>
    intro i hlen hb
    rw [assembleExtra]
    apply Nat.or_lt_two_pow
    · have hble : b < 256 := hb b (by simp)
      have hshift : 8 * (i + 4 - e) ≤ 24 := by
        simp only [List.length_cons] at hlen
        omega
      calc b <<< (8 * (i + 4 - e)) = b * 2 ^ (8 * (i + 4 - e)) := Nat.shiftLeft_eq _ _
        _ ≤ 255 * 2 ^ 24 := by
            apply Nat.mul_le_mul (by omega)
            exact Nat.pow_le_pow_right (by norm_num) hshift
        _ < 2 ^ 32 := by norm_num
    · apply ih (i + 1)
      · simp only [List.length_cons] at hlen
        omega
      · intro x hx
        exact hb x (List.mem_cons_of_mem _ hx)

/-- A multiple of `2^k` that is below `2^n` is at most `2^n - 2^k`. -/
theorem mult_two_pow_bound {m k n : Nat} (hk : k ≤ n) (hdvd : m % 2^k = 0)
    (hlt : m < 2^n) : m ≤ 2^n - 2^k := by
  have hpos : 0 < 2^k := Nat.pos_pow_of_pos k (by norm_num)
  have heq : 2^k * (m / 2^k) = m := Nat.mul_div_cancel' (Nat.dvd_of_mod_eq_zero hdvd)
  have hq : m / 2^k < 2^(n - k) := by
    by_contra hge
    push_neg at hge
    have : 2^k * 2^(n-k) ≤ 2^k * (m / 2^k) := Nat.mul_le_mul_left _ hge
    rw [← Nat.pow_add, Nat.add_sub_cancel' hk] at this
    omega
  have : 2^k * (m / 2^k) ≤ 2^k * (2^(n-k) - 1) := Nat.mul_le_mul_left _ (by omega)
  rw [heq, Nat.mul_sub_one] at this
  rw [← Nat.pow_add, Nat.add_sub_cancel' hk] at this
  omega

/-- Every value emitted by the unpacking loop fits in `nbits` bits, provided
all source words are 32-bit values. -/
theorem unpackLoop_bound (nbits : Nat) :
    ∀ (count : Nat) (src : List Nat) (v bitsLeft : Nat) (vals : List Nat),
      unpackLoop nbits src v bitsLeft count = some vals →
      (∀ w ∈ src, w < 2^32) →
      ∀ x ∈ vals, x < 2^nbits := by
  intro count
  induction count with
  | zero =>
    intro src v bitsLeft vals h _ x hx
    rw [unpackLoop] at h
    cases h
    cases hx
  | succ n ih =>
    intro src v bitsLeft vals h hsrc x hx
    simp only [unpackLoop] at h
    have hmask : (1 <<< nbits) - 1 = 2^nbits - 1 := by rw [Nat.shiftLeft_eq, one_mul]
    split at h
    · rcases Option.map_eq_some'.mp h with ⟨rest, hrest, rfl⟩
      rcases List.mem_cons.mp hx with rfl | hx'
      · calc ((1 <<< nbits) - 1) &&& (v >>> (bitsLeft - nbits)) ≤ (1 <<< nbits) - 1 :=
              Nat.and_le_left
          _ < 2^nbits := by
              rw [hmask]
              exact Nat.sub_lt (Nat.pos_pow_of_pos _ (by norm_num)) (by norm_num)
      · exact ih src v (bitsLeft - nbits) rest hrest hsrc x hx'
    · rename_i hble
      split at h
      · cases h
      · rename_i w rest
        split at h
        · cases h
        · rename_i hguard
          rcases Option.map_eq_some'.mp h with ⟨vs, hvs, rfl⟩
          have hw : w < 2^32 := hsrc w (by simp)
          have hsrc' : ∀ u ∈ rest, u < 2^32 := fun u hu =>
            hsrc u (List.mem_cons_of_mem _ hu)
          rcases List.mem_cons.mp hx with rfl | hx'
          · set k := nbits - bitsLeft with hk
            have hk1 : 1 ≤ k := by omega
            have hk32 : k ≤ 32 := by omega
            have hs : bitsLeft + 32 - nbits = 32 - k := by omega
            -- the spliced high part is a multiple of 2^k below 2^nbits
            have hvtmp_le : ((1 <<< nbits) - 1) &&& (v <<< k) ≤ 2^nbits - 1 := by
              rw [← hmask]
              exact Nat.and_le_left
            have hvtmp_mod : (((1 <<< nbits) - 1) &&& (v <<< k)) % 2^k = 0 := by
              conv_lhs => rw [← Nat.and_pow_two_sub_one_eq_mod, Nat.and_assoc]
              have hz : (v <<< k) &&& (2^k - 1) = 0 := by
                rw [Nat.and_pow_two_sub_one_eq_mod, Nat.shiftLeft_eq, Nat.mul_mod_left]
              rw [hz, Nat.and_zero]
            have hltpow : ((1 <<< nbits) - 1) &&& (v <<< k) < 2^nbits :=
              lt_of_le_of_lt hvtmp_le
                (Nat.sub_lt (Nat.pos_pow_of_pos _ (by norm_num)) (by norm_num))
            have hvtmp : ((1 <<< nbits) - 1) &&& (v <<< k) ≤ 2^nbits - 2^k :=
              mult_two_pow_bound (by omega) hvtmp_mod hltpow
            have haddend : w >>> (bitsLeft + 32 - nbits) < 2^k := by
              rw [hs, Nat.shiftRight_eq_div_pow]
              rw [Nat.div_lt_iff_lt_mul (Nat.pos_pow_of_pos _ (by norm_num))]
              calc w < 2^32 := hw
                _ = 2^k * 2^(32 - k) := by rw [← Nat.pow_add, Nat.add_sub_cancel' hk32]
            have hpow : 2^k ≤ 2^nbits := Nat.pow_le_pow_right (by norm_num) (by omega)
            calc ((1 <<< nbits) - 1 &&& v <<< k) + w >>> (bitsLeft + 32 - nbits)
                < (2^nbits - 2^k) + 2^k := add_lt_add_of_le_of_lt hvtmp haddend
              _ = 2^nbits := Nat.sub_add_cancel hpow
          · exact ih rest w (bitsLeft + 32 - nbits) vs hvs hsrc' x hx'

/-- `readBytes` returns exactly the requested number of bytes. -/
theorem readBytes_length (blob : Blob) :
    ∀ (n off : Nat) (bs : List Nat), readBytes blob off n = some bs →
      bs.length = n := by
  intro n
  induction n with
  | zero =>
    intro off bs h
    rw [readBytes] at h
    cases h
    rfl
  | succ n ih =>
    intro off bs h
    rw [readBytes] at h
    simp only [Option.bind_eq_bind] at h
    rcases Option.bind_eq_some.mp h with ⟨b0, hb0, h2⟩
    rcases Option.bind_eq_some.mp h2 with ⟨bs1, hbs1, h3⟩
    simp only [pure, Option.some.injEq] at h3
    subst h3
    simp [ih (off + 1) bs1 hbs1]

/-- C9: whenever `read_qval` returns an unpacked sequence, every element is
non-negative (it is a natural number) and strictly below `2 ^ n`, where `n`
is the bits-per-value field in the low six bits of the header byte. -/
theorem c9_read_qval_range (blob : Blob) (off off2 : Nat) (vals : List Nat) (hb : Nat)
    (hbytes : ∀ b ∈ blob, b < 256)
    (hhdr : readU8 blob off = some hb)
    (hread : read_qval blob off = some (some vals, off2)) :
    ∀ x ∈ vals, x < 2 ^ (hb &&& 63) := by
  rw [read_qval, hhdr] at hread
  simp only [Option.bind_eq_bind, Option.some_bind] at hread
  split at hread
  · simp only [pure, Option.some.injEq, Prod.mk.injEq] at hread
    cases hread.1
  · split at hread <;>
    first
      | cases hread
      | · rcases Option.bind_eq_some.mp hread with ⟨y, hy, h2⟩
          rcases Option.bind_eq_some.mp h2 with ⟨ws0, hws0, h3⟩
          have hws0lt : ∀ w ∈ ws0, w < 2^32 :=
            readU32List_bound blob hbytes _ _ ws0 hws0
          split at h3
          · split at h3
            · cases h3
            · rcases Option.bind_eq_some.mp h3 with ⟨vals1, hv1, h6⟩
              simp only [pure, Option.some.injEq, Prod.mk.injEq] at h6
              rcases h6 with ⟨rfl, rfl⟩
              exact unpackLoop_bound (hb &&& 63) y.1 _ _ 32 _ hv1
                (fun u hu => hws0lt u (List.mem_cons_of_mem _ hu))
          · rcases Option.bind_eq_some.mp h3 with ⟨bs, hbs, h5⟩
            split at h5
            · cases h5
            · rename_i v src heq
              rcases Option.bind_eq_some.mp h5 with ⟨vals1, hv1, h6⟩
              simp only [pure, Option.some.injEq, Prod.mk.injEq] at h6
              rcases h6 with ⟨rfl, rfl⟩
              refine unpackLoop_bound (hb &&& 63) y.1 src v 32 _ hv1 ?_
              intro u hu
              have humem : u ∈ v :: src := List.mem_cons_of_mem _ hu
              rw [← heq] at humem
              rcases List.mem_append.mp humem with hu2 | hu2
              · exact hws0lt u hu2
              · rcases List.mem_singleton.mp hu2 with rfl
                apply assembleExtra_bound _ bs 0
                · rw [readBytes_length blob _ _ bs hbs]
                  omega
                · intro b hbmem
                  exact hbytes b (readBytes_mem blob _ _ bs hbs b hbmem)

/-- C9 witness at a concrete packed stream (8 bits per value, one value). -/
theorem c9_read_qval_range_witness : (3 : Nat) < 2 ^ ((136 : Nat) &&& 63) :=
  c9_read_qval_range [136, 1, 3] 0 3 [3] 136 (by decide) (by decide) (by decide)
    3 (by decide)

/-- Decomposition of a mixed-radix remainder. -/
theorem mod_mul_decomp (A P Q R : Nat) (hR : R < Q) :
    (A * Q + R) % (P * Q) = (A % P) * Q + R := by
  rcases Nat.eq_zero_or_pos P with rfl | hP
  · simp [Nat.mod_zero]
  · have h1 : A * Q + R = (P * Q) * (A / P) + ((A % P) * Q + R) := by
      have := Nat.div_add_mod A P
      calc A * Q + R = (P * (A / P) + A % P) * Q + R := by rw [this]
        _ = (P * Q) * (A / P) + ((A % P) * Q + R) := by ring
    rw [h1, Nat.mul_add_mod]
    apply Nat.mod_eq_of_lt
    have hAP : A % P ≤ P - 1 := by
      have := Nat.mod_lt A hP
      omega
    calc (A % P) * Q + R < (A % P) * Q + Q := by omega
      _ = (A % P + 1) * Q := by ring
      _ ≤ P * Q := Nat.mul_le_mul_right Q (by omega)

/-- Exact division of a mixed-radix value by the inner radix. -/
theorem div_mul_add (A Q R : Nat) (hQ : 0 < Q) (hR : R < Q) : (A * Q + R) / Q = A := by
  rw [Nat.add_div_eq_of_add_mod_lt]
  · rw [Nat.mul_div_cancel _ hQ, Nat.div_eq_of_lt hR]
    omega
  · rw [Nat.mul_mod_left, Nat.mod_eq_of_lt hR]
    omega

/-- A word sequence of 32-bit values denotes a value of bounded bit length. -/
theorem wordsVal_lt : ∀ (ws : List Nat), (∀ w ∈ ws, w < 2^32) →
    wordsVal ws < 2 ^ (32 * ws.length) := by
  intro ws
  induction ws with
  | nil =>
    intro _
    rw [wordsVal]
    norm_num
  | cons w rest ih =>
    intro h
    rw [wordsVal]
    have hw : w < 2^32 := h w (by simp)
    have hr : wordsVal rest < 2 ^ (32 * rest.length) := ih fun u hu => h u (by simp [hu])
    have hle : w * 2 ^ (32 * rest.length) ≤ (2^32 - 1) * 2 ^ (32 * rest.length) :=
      Nat.mul_le_mul_right _ (by omega)
    calc w * 2 ^ (32 * rest.length) + wordsVal rest
        < w * 2 ^ (32 * rest.length) + 2 ^ (32 * rest.length) := by omega
      _ = (w + 1) * 2 ^ (32 * rest.length) := by ring
      _ ≤ 2^32 * 2 ^ (32 * rest.length) := Nat.mul_le_mul_right _ (by omega)
      _ = 2 ^ (32 * (rest.length + 1)) := by rw [← Nat.pow_add]; ring_nf

/-- Dropping the low block of a mixed-radix value shifts out the remainder. -/
theorem stream_shiftRight (X R B s : Nat) (hR : R < 2^B) :
    (X * 2^B + R) >>> (s + B) = X >>> s := by
  rw [Nat.shiftRight_eq_div_pow, Nat.shiftRight_eq_div_pow]
  rw [Nat.add_comm s B, Nat.pow_add, ← Nat.div_div_eq_div_mul]
  rw [div_mul_add X (2^B) R (Nat.pos_pow_of_pos _ (by norm_num)) hR]

/-- Taking a low slice of a mixed-radix value keeps the remainder intact. -/
theorem stream_mod (X R B t : Nat) (hR : R < 2^B) :
    (X * 2^B + R) % 2^(t + B) = (X % 2^t) * 2^B + R := by
  rw [Nat.pow_add]
  exact mod_mul_decomp X (2^t) (2^B) R hR

/-- The unpack loop computes exactly the MSB-first chunk extraction from the
bit stream represented by its state. -/
theorem unpackLoop_eq_chunkList (nbits : Nat) (h1 : 1 ≤ nbits) (h32 : nbits ≤ 32) :
    ∀ (count : Nat) (src : List Nat) (v bl : Nat),
      v < 2^32 → (∀ w ∈ src, w < 2^32) → bl ≤ 32 →
      count * nbits ≤ bl + 32 * src.length →
      unpackLoop nbits src v bl count
        = some (chunkList nbits count (streamVal v bl src) (bl + 32 * src.length)) := by
  intro count
  induction count with
  | zero =>
    intro src v bl _ _ _ _
    rw [unpackLoop, chunkList]
  | succ c ih =>
    intro src v bl hv hsrc hbl hlen
    have hmask : (1 <<< nbits) - 1 = 2^nbits - 1 := by rw [Nat.shiftLeft_eq, one_mul]
    by_cases hble : nbits ≤ bl
    · simp only [unpackLoop]
      rw [if_pos hble, ih src v (bl - nbits) hv hsrc (by omega)
        (by have hd : (c + 1) * nbits = c * nbits + nbits := by ring
            omega)]
      simp only [Option.map_some', Option.some.injEq]
      conv_rhs => rw [chunkList]
      have hR : wordsVal src < 2 ^ (32 * src.length) := wordsVal_lt src hsrc
      have hSL : bl + 32 * src.length - nbits = (bl - nbits) + 32 * src.length := by
        omega
      have hhead : (streamVal v bl src >>> (bl + 32 * src.length - nbits)) &&& (2^nbits - 1)
          = ((1 <<< nbits) - 1) &&& (v >>> (bl - nbits)) := by
        rw [hSL, streamVal, stream_shiftRight _ _ _ _ hR]
        rw [hmask, Nat.land_comm ((2:Nat)^nbits - 1), Nat.and_pow_two_sub_one_eq_mod,
          Nat.and_pow_two_sub_one_eq_mod]
        rw [Nat.shiftRight_eq_div_pow, Nat.shiftRight_eq_div_pow]
        have hsplit : (2:Nat)^bl = 2^(bl - nbits) * 2^nbits := by
          rw [← Nat.pow_add]
          congr 1
          omega
        rw [hsplit, Nat.mod_mul_right_div_self, Nat.mod_mod_of_dvd _ dvd_rfl]
      have htail : streamVal v bl src % 2 ^ (bl + 32 * src.length - nbits)
          = streamVal v (bl - nbits) src := by
        rw [hSL, streamVal, streamVal, stream_mod _ _ _ _ hR,
          Nat.mod_mod_of_dvd v (Nat.pow_dvd_pow 2 (by omega))]
      rw [hhead, htail, hSL]
    · rcases src with _ | ⟨w, rest⟩
      · exfalso
        simp only [List.length_nil, Nat.mul_zero, Nat.add_zero] at hlen
        have : nbits ≤ (c + 1) * nbits := Nat.le_mul_of_pos_left _ (by omega)
        omega
      · have hw : w < 2^32 := hsrc w (by simp)
        have hrest : ∀ u ∈ rest, u < 2^32 := fun u hu => hsrc u (by simp [hu])
        have hR : wordsVal rest < 2 ^ (32 * rest.length) := wordsVal_lt rest hrest
        have hblpos : (0:Nat) < 2^bl := Nat.pos_pow_of_pos _ (by norm_num)
        simp only [unpackLoop]
        rw [if_neg hble, if_neg (show ¬(bl + 32 < nbits) by omega)]
        rw [ih rest w (bl + 32 - nbits) hw hrest (by omega)
          (by simp only [List.length_cons] at hlen
              have hd : (c + 1) * nbits = c * nbits + nbits := by ring
              omega)]
        simp only [Option.map_some', Option.some.injEq]
        conv_rhs => rw [chunkList]
        have hre : streamVal v bl (w :: rest)
            = ((v % 2^bl) * 2^32 + w) * 2 ^ (32 * rest.length) + wordsVal rest := by
          rw [streamVal, wordsVal, List.length_cons, Nat.mul_add, Nat.mul_one,
            Nat.pow_add]
          ring
        have hSL2 : bl + 32 * (w :: rest).length - nbits
            = (bl + 32 - nbits) + 32 * rest.length := by
          simp only [List.length_cons]
          omega
        have h2_32 : (2:Nat)^32 = 2^(nbits - bl) * 2^(bl + 32 - nbits) := by
          rw [← Nat.pow_add]
          congr 1
          omega
        have h2_n : (2:Nat)^nbits = 2^bl * 2^(nbits - bl) := by
          rw [← Nat.pow_add]
          congr 1
          omega
        have hXdiv : ((v % 2^bl) * 2^32 + w) >>> (bl + 32 - nbits)
            = (v % 2^bl) * 2^(nbits - bl) + (w >>> (bl + 32 - nbits)) := by
          rw [Nat.shiftRight_eq_div_pow, Nat.shiftRight_eq_div_pow, h2_32,
            ← Nat.mul_assoc,
            Nat.mul_comm ((v % 2^bl) * 2^(nbits - bl)) (2^(bl + 32 - nbits)),
            Nat.mul_add_div (Nat.pos_pow_of_pos _ (by norm_num))]
        have hwdiv : w >>> (bl + 32 - nbits) < 2^(nbits - bl) := by
          rw [Nat.shiftRight_eq_div_pow,
            Nat.div_lt_iff_lt_mul (Nat.pos_pow_of_pos _ (by norm_num))]
          calc w < 2^32 := hw
            _ = 2^(nbits - bl) * 2^(bl + 32 - nbits) := h2_32
        have hXlt : ((v % 2^bl) * 2^32 + w) >>> (bl + 32 - nbits) < 2^nbits := by
          rw [hXdiv]
          have hm : (v % 2^bl) * 2^(nbits - bl) ≤ (2^bl - 1) * 2^(nbits - bl) :=
            Nat.mul_le_mul_right _ (by have := Nat.mod_lt v hblpos; omega)
          have hfin : (2^bl - 1) * 2^(nbits - bl) + 2^(nbits - bl) = 2^nbits := by
            have hp : (2:Nat)^bl - 1 + 1 = 2^bl := by omega
            calc (2^bl - 1) * 2^(nbits - bl) + 2^(nbits - bl)
                = ((2^bl - 1) + 1) * 2^(nbits - bl) := by ring
              _ = 2^bl * 2^(nbits - bl) := by rw [hp]
              _ = 2^nbits := h2_n.symm
          omega
        have hhead : (streamVal v bl (w :: rest)
              >>> (bl + 32 * (w :: rest).length - nbits)) &&& (2^nbits - 1)
            = (((1 <<< nbits) - 1) &&& (v <<< (nbits - bl)))
              + (w >>> (bl + 32 - nbits)) := by
          rw [hSL2, hre, stream_shiftRight _ _ _ _ hR,
            Nat.and_pow_two_sub_one_of_lt_two_pow hXlt, hXdiv, hmask,
            Nat.land_comm ((2:Nat)^nbits - 1), Nat.and_pow_two_sub_one_eq_mod,
            Nat.shiftLeft_eq, h2_n, Nat.mul_mod_mul_right]
        have htail : streamVal v bl (w :: rest)
              % 2 ^ (bl + 32 * (w :: rest).length - nbits)
            = streamVal w (bl + 32 - nbits) rest := by
          rw [hSL2, hre, stream_mod _ _ _ _ hR, streamVal]
          have hXmod : ((v % 2^bl) * 2^32 + w) % 2 ^ (bl + 32 - nbits)
              = w % 2 ^ (bl + 32 - nbits) := by
            rw [h2_32, ← Nat.mul_assoc, Nat.add_comm, Nat.add_mul_mod_self_right]
          rw [hXmod]
        rw [hhead, htail, hSL2]

/-- The packed stream of bounded values is bounded by its bit length. -/
theorem packStream_lt (nbits : Nat) :
    ∀ (vals : List Nat), (∀ v ∈ vals, v < 2^nbits) →
      packStream nbits vals < 2 ^ (vals.length * nbits) := by
  intro vals
  induction vals with
  | nil =>
    intro _
    rw [packStream]
    norm_num
  | cons v rest ih =>
    intro h
    rw [packStream]
    have hv : v < 2^nbits := h v (by simp)
    have hr : packStream nbits rest < 2 ^ (rest.length * nbits) :=
      ih fun u hu => h u (by simp [hu])
    have hstep : (2:Nat) ^ ((rest.length + 1) * nbits)
        = 2 ^ nbits * 2 ^ (rest.length * nbits) := by
      rw [← Nat.pow_add]
      ring_nf
    calc v * 2 ^ (rest.length * nbits) + packStream nbits rest
        < v * 2 ^ (rest.length * nbits) + 2 ^ (rest.length * nbits) := by omega
      _ = (v + 1) * 2 ^ (rest.length * nbits) := by ring
      _ ≤ 2^nbits * 2 ^ (rest.length * nbits) := Nat.mul_le_mul_right _ (by omega)
      _ = 2 ^ ((rest.length + 1) * nbits) := hstep.symm
    -- length_cons handled definitionally
  -- done

/-- Chunk extraction undoes MSB-first packing, for any padding at the low end. -/
theorem chunkList_packStream (nbits : Nat) :
    ∀ (vals : List Nat) (pad : Nat), (∀ v ∈ vals, v < 2^nbits) →
      chunkList nbits vals.length (packStream nbits vals * 2^pad)
        (vals.length * nbits + pad) = vals := by
  intro vals
  induction vals with
  | nil =>
    intro pad _
    simp only [List.length_nil]
    rw [chunkList]
  | cons v rest ih =>
    intro pad h
    have hv : v < 2^nbits := h v (by simp)
    have hrest : ∀ u ∈ rest, u < 2^nbits := fun u hu => h u (by simp [hu])
    have hr : packStream nbits rest < 2 ^ (rest.length * nbits) :=
      packStream_lt nbits rest hrest
    rw [List.length_cons]
    simp only [chunkList, packStream]
    have hSL : (rest.length + 1) * nbits + pad - nbits
        = rest.length * nbits + pad := by
      have hd : (rest.length + 1) * nbits = rest.length * nbits + nbits := by ring
      omega
    have hassoc : (v * 2 ^ (rest.length * nbits) + packStream nbits rest) * 2^pad
        = v * (2 ^ (rest.length * nbits) * 2^pad)
          + packStream nbits rest * 2^pad := by ring
    have hassocM : (v * 2 ^ (rest.length * nbits) + packStream nbits rest) * 2^pad
        = (2 ^ (rest.length * nbits) * 2^pad) * v
          + packStream nbits rest * 2^pad := by ring
    have hQpos : (0:Nat) < 2 ^ (rest.length * nbits) * 2^pad :=
      Nat.mul_pos (Nat.pos_pow_of_pos _ (by norm_num)) (Nat.pos_pow_of_pos _ (by norm_num))
    have hRlt : packStream nbits rest * 2^pad
        < 2 ^ (rest.length * nbits) * 2^pad :=
      mul_lt_mul_of_pos_right hr (Nat.pos_pow_of_pos _ (by norm_num))
    have hpow : (2:Nat) ^ (rest.length * nbits + pad)
        = 2 ^ (rest.length * nbits) * 2^pad := Nat.pow_add 2 _ _
    have hhead : ((v * 2 ^ (rest.length * nbits) + packStream nbits rest) * 2^pad)
          >>> ((rest.length + 1) * nbits + pad - nbits) &&& (2^nbits - 1) = v := by
      rw [hSL, hassoc, Nat.shiftRight_eq_div_pow, hpow,
        div_mul_add v _ _ hQpos hRlt,
        Nat.and_pow_two_sub_one_of_lt_two_pow hv]
    have htail : ((v * 2 ^ (rest.length * nbits) + packStream nbits rest) * 2^pad)
          % 2 ^ (rest.length * nbits + pad)
        = packStream nbits rest * 2^pad := by
      rw [hassocM, hpow, Nat.mul_add_mod, Nat.mod_eq_of_lt hRlt]
    rw [hhead, hSL, htail, ih pad hrest]

/-- Number of words produced by `packWords`. -/
theorem packWords_length (nbits : Nat) (vals : List Nat) :
    (packWords nbits vals).length = (vals.length * nbits + 31) / 32 := by
  rw [packWords]
  simp

/-- Every packed word is a 32-bit value. -/
theorem packWords_lt (nbits : Nat) (vals : List Nat) :
    ∀ w ∈ packWords nbits vals, w < 2^32 := by
  intro w hw
  rw [packWords] at hw
  simp only [List.mem_map] at hw
  rcases hw with ⟨j, _, rfl⟩
  calc _ ≤ 2^32 - 1 := Nat.and_le_right
    _ < 2^32 := by norm_num

/-- A low 32-bit slice taken after restricting to the stream length agrees
with the unrestricted slice, as long as the slice fits. -/
theorem chunk_mod_irrelevant (M t s : Nat) (h : s + 32 ≤ t) :
    ((M % 2^t) >>> s) &&& (2^32 - 1) = (M >>> s) &&& (2^32 - 1) := by
  rw [Nat.and_pow_two_sub_one_eq_mod, Nat.and_pow_two_sub_one_eq_mod,
    Nat.shiftRight_eq_div_pow, Nat.shiftRight_eq_div_pow]
  have hsplit : (2:Nat)^t = 2^s * 2^(t - s) := by
    rw [← Nat.pow_add]
    congr 1
    omega
  rw [hsplit, Nat.mod_mul_right_div_self,
    Nat.mod_mod_of_dvd _ (Nat.pow_dvd_pow 2 (by omega))]

/-- MSB-first 32-bit chunking of a bounded value denotes it exactly. -/
theorem wordsVal_chunks :
    ∀ (nw : Nat) (M : Nat), M < 2 ^ (32 * nw) →
      wordsVal ((List.range nw).map
        (fun j => (M >>> (32 * (nw - 1 - j))) &&& (2^32 - 1))) = M := by
  intro nw
  induction nw with
  | zero =>
    intro M hM
    simp only [List.range_zero, List.map_nil, wordsVal]
    norm_num at hM
    omega
  | succ n ih =>
    intro M hM
    rw [List.range_succ_eq_map]
    simp only [List.map_cons, List.map_map]
    rw [wordsVal]
    have htailfix : (List.range n).map
          ((fun j => (M >>> (32 * (n + 1 - 1 - j))) &&& (2^32 - 1)) ∘ Nat.succ)
        = (List.range n).map
          (fun j => ((M % 2^(32 * n)) >>> (32 * (n - 1 - j))) &&& (2^32 - 1)) := by
      apply List.map_congr_left
      intro j hj
      rw [List.mem_range] at hj
      simp only [Function.comp]
      have he : n + 1 - 1 - Nat.succ j = n - 1 - j := by omega
      rw [he, chunk_mod_irrelevant M (32 * n) (32 * (n - 1 - j)) (by omega)]
    rw [htailfix, ih (M % 2^(32 * n)) (Nat.mod_lt M (Nat.pos_pow_of_pos _ (by norm_num)))]
    simp only [List.length_map, List.length_range]
    have hhd : (M >>> (32 * (n + 1 - 1 - 0))) &&& (2^32 - 1) = M >>> (32 * n) := by
      have hlt : M >>> (32 * n) < 2^32 := by
        rw [Nat.shiftRight_eq_div_pow,
          Nat.div_lt_iff_lt_mul (Nat.pos_pow_of_pos _ (by norm_num))]
        calc M < 2 ^ (32 * (n + 1)) := hM
          _ = 2^32 * 2^(32 * n) := by rw [← Nat.pow_add]; ring_nf
        
      have he : n + 1 - 1 - 0 = n := by omega
      rw [he, Nat.and_pow_two_sub_one_of_lt_two_pow hlt]
    rw [hhd, Nat.shiftRight_eq_div_pow, Nat.mul_comm (M / 2^(32 * n)) (2^(32 * n))]
    exact Nat.div_add_mod M (2^(32 * n))

/-- A 32-bit word is recovered from its little-endian byte quadruple. -/
theorem le32_leBytes4 (w : Nat) (hw : w < 2^32) (rest : List Nat) :
    le32 (leBytes4 w ++ rest) = some w := by
  rw [leBytes4, List.cons_append, List.cons_append, List.cons_append,
    List.cons_append, le32]
  congr 1
  have h255 : (255 : Nat) = 2^8 - 1 := by norm_num
  simp only [h255, Nat.and_pow_two_sub_one_eq_mod, Nat.shiftRight_eq_div_pow]
  omega

/-- `readU32List` recovers a word sequence stored as little-endian bytes. -/
theorem readU32List_of_flatMap :
    ∀ (ws : List Nat) (rest : List Nat) (blob : Blob) (off : Nat),
      (∀ w ∈ ws, w < 2^32) → blob.drop off = ws.flatMap leBytes4 ++ rest →
      readU32List blob off ws.length = some ws := by
  intro ws
  induction ws with
  | nil =>
    intro rest blob off _ _
    rw [List.length_nil, readU32List]
  | cons w wtail ih =>
    intro rest blob off hlt hdrop
    rw [List.length_cons, readU32List]
    have h1 : readU32 blob off = some w := by
      rw [readU32, hdrop, List.flatMap_cons, List.append_assoc]
      exact le32_leBytes4 w (hlt w (by simp)) _
    have h2 : blob.drop (off + 4) = wtail.flatMap leBytes4 ++ rest := by
      rw [← List.drop_drop, hdrop, List.flatMap_cons, List.append_assoc]
      have h4 : (leBytes4 w).length = 4 := by rw [leBytes4]; rfl
      rw [← h4, List.drop_left]
    rw [h1, ih rest blob (off + 4) (fun u hu => hlt u (by simp [hu])) h2]
    rfl

/-- `readBytes` recovers a literal byte prefix of the remaining buffer. -/
theorem readBytes_of_drop :
    ∀ (bs rest : List Nat) (blob : Blob) (off : Nat),
      blob.drop off = bs ++ rest → readBytes blob off bs.length = some bs := by
  intro bs
  induction bs with
  | nil =>
    intro rest blob off _
    rw [List.length_nil, readBytes]
  | cons b btail ih =>
    intro rest blob off hdrop
    rw [List.length_cons, readBytes]
    have h1 : readU8 blob off = some b := by
      rw [readU8, hdrop]
      rfl
    have h2 : blob.drop (off + 1) = btail ++ rest := by
      rw [← List.drop_drop, hdrop]
      rfl
    rw [h1, ih rest blob (off + 1) h2]
    rfl

/-- The stored high bytes of a low-zero 32-bit word reassemble to the word. -/
theorem assembleExtra_recover (e w : Nat) (he : 1 ≤ e) (he3 : e ≤ 3)
    (hw : w < 2^32) (hz : w % 2^(8*(4 - e)) = 0) :
    assembleExtra e ((leBytes4 w).drop (4 - e)) 0 = w := by
  have h255 : (255:Nat) = 2^8 - 1 := by norm_num
  interval_cases e
  · have hlist : (leBytes4 w).drop 3 = [(w >>> 24) &&& 255] := rfl
    rw [hlist, assembleExtra, assembleExtra, Nat.or_zero]
    rw [h255, Nat.and_pow_two_sub_one_eq_mod, Nat.shiftRight_eq_div_pow,
      Nat.shiftLeft_eq]
    norm_num at hz ⊢
    omega
  · have hlist : (leBytes4 w).drop 2 = [(w >>> 16) &&& 255, (w >>> 24) &&& 255] := rfl
    rw [hlist, assembleExtra, assembleExtra, assembleExtra, Nat.or_zero]
    have hXlt : ((w >>> 16) &&& 255) * 2^16 < 2^24 := by
      have : (w >>> 16) &&& 255 ≤ 255 := Nat.and_le_right
      calc ((w >>> 16) &&& 255) * 2^16 ≤ 255 * 2^16 := Nat.mul_le_mul_right _ this
        _ < 2^24 := by norm_num
    rw [show 8 * (0 + 4 - 2) = 16 from rfl, show 8 * (1 + 4 - 2) = 24 from rfl,
      Nat.shiftLeft_eq, Nat.shiftLeft_eq, Nat.lor_comm,
      Nat.mul_comm ((w >>> 24) &&& 255) (2^24),
      ← Nat.mul_add_lt_is_or hXlt ((w >>> 24) &&& 255)]
    rw [h255, Nat.and_pow_two_sub_one_eq_mod, Nat.and_pow_two_sub_one_eq_mod,
      Nat.shiftRight_eq_div_pow, Nat.shiftRight_eq_div_pow]
    norm_num at hz ⊢
    omega
  · have hlist : (leBytes4 w).drop 1
        = [(w >>> 8) &&& 255, (w >>> 16) &&& 255, (w >>> 24) &&& 255] := rfl
    rw [hlist, assembleExtra, assembleExtra, assembleExtra, assembleExtra,
      Nat.or_zero]
    have hXlt : ((w >>> 16) &&& 255) * 2^16 < 2^24 := by
      have : (w >>> 16) &&& 255 ≤ 255 := Nat.and_le_right
      calc ((w >>> 16) &&& 255) * 2^16 ≤ 255 * 2^16 := Nat.mul_le_mul_right _ this
        _ < 2^24 := by norm_num
    have hYlt : ((w >>> 8) &&& 255) * 2^8 < 2^16 := by
      have : (w >>> 8) &&& 255 ≤ 255 := Nat.and_le_right
      calc ((w >>> 8) &&& 255) * 2^8 ≤ 255 * 2^8 := Nat.mul_le_mul_right _ this
        _ < 2^16 := by norm_num
    rw [show 8 * (0 + 4 - 3) = 8 from rfl, show 8 * (1 + 4 - 3) = 16 from rfl,
      show 8 * (2 + 4 - 3) = 24 from rfl,
      Nat.shiftLeft_eq, Nat.shiftLeft_eq, Nat.shiftLeft_eq,
      Nat.lor_comm (((w >>> 16) &&& 255) * 2^16) (((w >>> 24) &&& 255) * 2^24),
      Nat.mul_comm ((w >>> 24) &&& 255) (2^24),
      ← Nat.mul_add_lt_is_or hXlt ((w >>> 24) &&& 255),
      show 2^24 * ((w >>> 24) &&& 255) + ((w >>> 16) &&& 255) * 2^16
          = 2^16 * (2^8 * ((w >>> 24) &&& 255) + ((w >>> 16) &&& 255)) from by ring,
      Nat.lor_comm (((w >>> 8) &&& 255) * 2^8),
      ← Nat.mul_add_lt_is_or hYlt (2^8 * ((w >>> 24) &&& 255) + ((w >>> 16) &&& 255))]
    rw [h255, Nat.and_pow_two_sub_one_eq_mod, Nat.and_pow_two_sub_one_eq_mod,
      Nat.and_pow_two_sub_one_eq_mod,
      Nat.shiftRight_eq_div_pow, Nat.shiftRight_eq_div_pow,
      Nat.shiftRight_eq_div_pow]
    norm_num at hz ⊢
    omega

/-- Unpacking the packed word sequence recovers the original values. -/
theorem unpack_packWords (nbits : Nat) (h1 : 1 ≤ nbits) (h32 : nbits ≤ 32)
    (vals : List Nat) (hc1 : 1 ≤ vals.length) (hv : ∀ v ∈ vals, v < 2^nbits)
    (v : Nat) (src : List Nat) (hws : packWords nbits vals = v :: src) :
    unpackLoop nbits src v 32 vals.length = some vals := by
  have hvlt : v < 2^32 := packWords_lt nbits vals v (by rw [hws]; simp)
  have hsrc : ∀ u ∈ src, u < 2^32 := fun u hu =>
    packWords_lt nbits vals u (by rw [hws]; simp [hu])
  have hlenws : (packWords nbits vals).length
      = (vals.length * nbits + 31) / 32 := packWords_length nbits vals
  rw [hws, List.length_cons] at hlenws
  have hL1 : 1 ≤ vals.length * nbits := Nat.mul_pos hc1 h1
  have hP : packStream nbits vals < 2 ^ (vals.length * nbits) :=
    packStream_lt nbits vals hv
  have hpadsum : vals.length * nbits
        + (32 * ((vals.length * nbits + 31) / 32) - vals.length * nbits)
      = 32 * ((vals.length * nbits + 31) / 32) := by omega
  have hMlt : packStream nbits vals
        <<< (32 * ((vals.length * nbits + 31) / 32) - vals.length * nbits)
      < 2 ^ (32 * ((vals.length * nbits + 31) / 32)) := by
    rw [Nat.shiftLeft_eq]
    calc packStream nbits vals
          * 2 ^ (32 * ((vals.length * nbits + 31) / 32) - vals.length * nbits)
        < 2 ^ (vals.length * nbits)
          * 2 ^ (32 * ((vals.length * nbits + 31) / 32) - vals.length * nbits) :=
          mul_lt_mul_of_pos_right hP (Nat.pos_pow_of_pos _ (by norm_num))
      _ = 2 ^ (32 * ((vals.length * nbits + 31) / 32)) := by
          rw [← Nat.pow_add, hpadsum]
  have hwords : wordsVal (packWords nbits vals)
      = packStream nbits vals
        <<< (32 * ((vals.length * nbits + 31) / 32) - vals.length * nbits) := by
    rw [packWords]
    exact wordsVal_chunks _ _ hMlt
  rw [unpackLoop_eq_chunkList nbits h1 h32 vals.length src v 32 hvlt hsrc
    (le_refl 32) (by omega)]
  have hstream : streamVal v 32 src
      = packStream nbits vals
        <<< (32 * ((vals.length * nbits + 31) / 32) - vals.length * nbits) := by
    rw [streamVal, Nat.mod_eq_of_lt hvlt, ← hwords, hws, wordsVal]
  rw [hstream]
  have hSL : 32 + 32 * src.length = vals.length * nbits
      + (32 * ((vals.length * nbits + 31) / 32) - vals.length * nbits) := by omega
  rw [hSL, Nat.shiftLeft_eq, chunkList_packStream nbits vals _ hv]

/-- Length of a word list stored as little-endian bytes. -/
theorem flatMap_leBytes4_length :
    ∀ (ws : List Nat), (ws.flatMap leBytes4).length = 4 * ws.length := by
  intro ws
  induction ws with
  | nil => rfl
  | cons w rest ih =>
    rw [List.flatMap_cons, List.length_append, ih, List.length_cons, leBytes4]
    simp
    ring

/-- The last packed word is the low 32-bit slice of the padded stream. -/
theorem packWords_getLast (nbits : Nat) (vals : List Nat)
    (h : 1 ≤ (vals.length * nbits + 31) / 32) :
    (packWords nbits vals).getLast?
      = some ((packStream nbits vals
          <<< (32 * ((vals.length * nbits + 31) / 32) - vals.length * nbits))
        % 2^32) := by
  rw [packWords, List.getLast?_eq_getElem?]
  simp only [List.length_map, List.length_range, List.getElem?_map]
  rw [List.getElem?_range (by omega)]
  rw [Option.map_some', Nat.sub_self, Nat.mul_zero,
    Nat.shiftRight_zero, Nat.and_pow_two_sub_one_eq_mod]

/-- The reference byte layout, written via `dropLast`/`getLast`. -/
theorem packBytes_decomp (nbits : Nat) (vals : List Nat)
    (h : packWords nbits vals ≠ []) :
    packBytes nbits vals
      = (packWords nbits vals).dropLast.flatMap leBytes4
        ++ (leBytes4 ((packWords nbits vals).getLast h)).drop
            ((4 - ((vals.length * nbits + 7) / 8
              - (vals.length * nbits + 7) / 8 / 4 * 4)) % 4) := by
  rw [packBytes, if_neg h, List.getLast?_eq_getLast _ h, Option.getD_some]

set_option maxHeartbeats 1000000 in
/-- Packing with the reference packer and unpacking with `read_qval` is the
identity on nonempty value sequences with a count below 256. -/
theorem qval_roundtrip (nbits : Nat) (h1 : 1 ≤ nbits) (h32 : nbits ≤ 32)
    (vals : List Nat) (hc1 : 1 ≤ vals.length) (hc256 : vals.length < 256)
    (hv : ∀ v ∈ vals, v < 2^nbits) :
    read_qval (packQval nbits vals) 0
      = some (some vals, 2 + (vals.length * nbits + 7) / 8) := by
  have hhdr : nbits ||| (2 <<< 6) = 128 + nbits := by
    rw [Nat.shiftLeft_eq, Nat.lor_comm, Nat.mul_comm 2 (2^6),
      ← Nat.mul_add_lt_is_or (show nbits < 2^6 by omega) 2]
  have hblob : packQval nbits vals
      = (128 + nbits) :: vals.length :: packBytes nbits vals := by
    rw [← hhdr]
    simp only [packQval, if_pos hc256, List.cons_append, List.nil_append]
  have hlow : (128 + nbits) &&& 63 = nbits := by
    rw [show (63:Nat) = 2^6 - 1 from rfl, Nat.and_pow_two_sub_one_eq_mod]
    omega
  have hbc : (128 + nbits) >>> 6 = 2 := by
    rw [Nat.shiftRight_eq_div_pow]
    omega
  have hL1 : 1 ≤ vals.length * nbits := Nat.mul_pos hc1 h1
  have hlen : (packWords nbits vals).length = (vals.length * nbits + 31) / 32 :=
    packWords_length nbits vals
  have hnw1 : 1 ≤ (vals.length * nbits + 31) / 32 := by omega
  have hne : packWords nbits vals ≠ [] := by
    intro hemp
    rw [hemp, List.length_nil] at hlen
    omega
  rw [hblob, read_qval]
  rw [show readU8 ((128 + nbits) :: vals.length :: packBytes nbits vals) 0
      = some (128 + nbits) from rfl]
  simp only [Option.bind_eq_bind, Option.some_bind]
  rw [hlow, if_neg (show ¬ nbits = 0 by omega), hbc]
  split
  · omega
  · omega
  · rw [show readU8 ((128 + nbits) :: vals.length :: packBytes nbits vals) (0 + 1)
        = some vals.length from rfl]
    simp only [Option.map_some', Option.some_bind]
    norm_num
    by_cases hE : (vals.length * nbits + 7) / 8 - (vals.length * nbits + 7) / 8 / 4 * 4 = 0
    · -- the packed stream ends exactly on a word boundary
      have hNN : (vals.length * nbits + 7) / 8 / 4 = (vals.length * nbits + 31) / 32 := by
        omega
      have hpack : packBytes nbits vals = (packWords nbits vals).flatMap leBytes4 := by
        rw [packBytes_decomp nbits vals hne, hE]
        norm_num
        conv_rhs => rw [← List.dropLast_append_getLast hne]
        rw [List.flatMap_append, List.flatMap_cons, List.flatMap_nil, List.append_nil]
      have hws0 : readU32List ((128 + nbits) :: vals.length :: packBytes nbits vals) 2
          ((vals.length * nbits + 7) / 8 / 4) = some (packWords nbits vals) := by
        have hdrop : (((128 + nbits) :: vals.length :: packBytes nbits vals).drop 2)
            = (packWords nbits vals).flatMap leBytes4 ++ [] := by
          rw [List.append_nil]
          exact hpack
        have hrec := readU32List_of_flatMap (packWords nbits vals) [] _ 2
          (packWords_lt nbits vals) hdrop
        rw [hlen, ← hNN] at hrec
        exact hrec
      rw [hws0]
      simp only [Option.some_bind]
      rw [if_pos hE]
      cases hws : packWords nbits vals with
      | nil => exact absurd hws hne
      | cons v src =>
        simp only []
        rw [unpack_packWords nbits h1 h32 vals hc1 hv v src hws]
        simp only [Option.some_bind]
        rw [show 2 + (vals.length * nbits + 7) / 8 / 4 * 4
            = 2 + (vals.length * nbits + 7) / 8 from by omega]
    · -- the last word is stored truncated
      have he1 : 1 ≤ (vals.length * nbits + 7) / 8
          - (vals.length * nbits + 7) / 8 / 4 * 4 := by
        omega
      have he3 : (vals.length * nbits + 7) / 8
          - (vals.length * nbits + 7) / 8 / 4 * 4 ≤ 3 := by
        omega
      have hinitlen : (packWords nbits vals).dropLast.length
          = (vals.length * nbits + 7) / 8 / 4 := by
        rw [List.length_dropLast, hlen]
        omega
      have hdrop2 : (((128 + nbits) :: vals.length :: packBytes nbits vals).drop 2)
          = (packWords nbits vals).dropLast.flatMap leBytes4
            ++ (leBytes4 ((packWords nbits vals).getLast hne)).drop
                (4 - ((vals.length * nbits + 7) / 8
                  - (vals.length * nbits + 7) / 8 / 4 * 4)) := by
        show packBytes nbits vals = _
        rw [packBytes_decomp nbits vals hne,
          Nat.mod_eq_of_lt (show 4 - ((vals.length * nbits + 7) / 8
            - (vals.length * nbits + 7) / 8 / 4 * 4) < 4 from by omega)]
      have hws0 : readU32List ((128 + nbits) :: vals.length :: packBytes nbits vals) 2
          ((vals.length * nbits + 7) / 8 / 4)
          = some (packWords nbits vals).dropLast := by
        have hrec := readU32List_of_flatMap (packWords nbits vals).dropLast _ _ 2
          (fun w hw => packWords_lt nbits vals w (List.dropLast_subset _ hw)) hdrop2
        rw [hinitlen] at hrec
        exact hrec
      rw [hws0]
      simp only [Option.some_bind]
      rw [if_neg hE]
      have hlenF : ((packWords nbits vals).dropLast.flatMap leBytes4).length
          = (vals.length * nbits + 7) / 8 / 4 * 4 := by
        rw [flatMap_leBytes4_length, hinitlen, Nat.mul_comm]
      have hdropB : (((128 + nbits) :: vals.length :: packBytes nbits vals).drop
          (2 + (vals.length * nbits + 7) / 8 / 4 * 4))
          = (leBytes4 ((packWords nbits vals).getLast hne)).drop
              (4 - ((vals.length * nbits + 7) / 8
                - (vals.length * nbits + 7) / 8 / 4 * 4)) ++ [] := by
        rw [List.append_nil, ← List.drop_drop, hdrop2, ← hlenF, List.drop_left]
      have hrestlen : ((leBytes4 ((packWords nbits vals).getLast hne)).drop
          (4 - ((vals.length * nbits + 7) / 8
            - (vals.length * nbits + 7) / 8 / 4 * 4))).length
          = (vals.length * nbits + 7) / 8 - (vals.length * nbits + 7) / 8 / 4 * 4 := by
        rw [List.length_drop, show (leBytes4 ((packWords nbits vals).getLast hne)).length
            = 4 from rfl]
        omega
      have hbs : readBytes ((128 + nbits) :: vals.length :: packBytes nbits vals)
          (2 + (vals.length * nbits + 7) / 8 / 4 * 4)
          ((vals.length * nbits + 7) / 8 - (vals.length * nbits + 7) / 8 / 4 * 4)
          = some ((leBytes4 ((packWords nbits vals).getLast hne)).drop
              (4 - ((vals.length * nbits + 7) / 8
                - (vals.length * nbits + 7) / 8 / 4 * 4))) := by
        have hrec := readBytes_of_drop _ [] _ _ hdropB
        rw [hrestlen] at hrec
        exact hrec
      rw [hbs]
      simp only [Option.some_bind]
      have hz : (packWords nbits vals).getLast hne
          % 2 ^ (8 * (4 - ((vals.length * nbits + 7) / 8
            - (vals.length * nbits + 7) / 8 / 4 * 4))) = 0 := by
        have hlv := packWords_getLast nbits vals hnw1
        rw [List.getLast?_eq_getLast _ hne, Option.some_inj] at hlv
        rw [hlv, Nat.mod_mod_of_dvd _ (Nat.pow_dvd_pow 2 (by omega)), Nat.shiftLeft_eq]
        exact Nat.dvd_iff_mod_eq_zero.mp
          (Dvd.dvd.mul_left (Nat.pow_dvd_pow 2 (by omega)) (packStream nbits vals))
      rw [assembleExtra_recover _ _ he1 he3
        (packWords_lt nbits vals _ (List.getLast_mem hne)) hz]
      rw [List.dropLast_append_getLast hne]
      cases hws : packWords nbits vals with
      | nil => exact absurd hws hne
      | cons v src =>
        simp only []
        rw [unpack_packWords nbits h1 h32 vals hc1 hv v src hws]
        simp only [Option.some_bind]
        rw [show 2 + (vals.length * nbits + 7) / 8 / 4 * 4
            + ((vals.length * nbits + 7) / 8 - (vals.length * nbits + 7) / 8 / 4 * 4)
            = 2 + (vals.length * nbits + 7) / 8 from by omega]
  · exact absurd rfl (by assumption)

/-- C7 (corrected to counts 1, 2 and 33): for every bitsPerValue in
{1, 3, 8, 16, 31} and every count in {1, 2, 33}, packing a sequence of that
many integers below `2^bitsPerValue` with the reference MSB-first packer
(header byte, count field, whole little-endian 32-bit words with the unused
low-order trailing bytes of the last word omitted) and unpacking with
`read_qval` yields exactly the original sequence. -/
theorem c7_pack_unpack_roundtrip (nbits : Nat) (vals : List Nat)
    (hn : nbits ∈ [1, 3, 8, 16, 31]) (hcnt : vals.length ∈ [1, 2, 33])
    (hv : ∀ v ∈ vals, v < 2^nbits) :
    read_qval (packQval nbits vals) 0
      = some (some vals, 2 + (vals.length * nbits + 7) / 8) := by
  simp only [List.mem_cons, List.not_mem_nil, or_false] at hn hcnt
  exact qval_roundtrip nbits (by omega) (by omega) vals (by omega) (by omega) hv

/-- Witness for C7: a word-spanning instance, 33 values at 31 bits each. -/
theorem c7_pack_unpack_roundtrip_witness :
    read_qval (packQval 31 (List.replicate 33 1)) 0
      = some (some (List.replicate 33 1), 2 + ((List.replicate 33 1).length * 31 + 7) / 8) :=
  c7_pack_unpack_roundtrip 31 (List.replicate 33 1) (by decide) (by decide) (by decide)

/-- Counterexample for C7 as stated: with count 0 the unpacker primes
`v = next(src)` on an empty word sequence, so `read_qval` raises
(`none`) instead of returning the empty sequence. -/
theorem c7_counterexample : read_qval (packQval 1 []) 0 = none := by decide
